import Mathlib

/-!
Verification of the NCCI PTP release resolver and fetch/merge pipeline
(`getConvertLatestPracPTPEdits.py`) and of the edit-pair table loader
(`app.py`).  The Python string surgery (regex search/sub), the candidate
generator, the merge, the path derivation, the version-marker handling and
the orchestrator `download_or_skip_both_with_version` are embedded as
executable Lean functions over `List Char` / `String`; network fetches,
pandas parsing and filesystem outcomes are oracle parameters of an `Env`
record, and the run is modelled as the list of externally visible effects
(fetch calls, table writes, marker writes) together with its result.
-/

namespace NCCI

/-- Decimal digit characters of a natural number, fuel-based so that the
kernel can evaluate it (mirrors Python `str(n)` / `f-string` rendering). -/
def natCharsCore : Nat → Nat → List Char → List Char
  | 0, _, acc => acc
  | f + 1, n, acc =>
    if n < 10 then Nat.digitChar n :: acc
    else natCharsCore f (n / 10) (Nat.digitChar (n % 10) :: acc)

/-- Decimal digit characters of `n` (mirrors Python `str(n)`). -/
def natChars (n : Nat) : List Char := natCharsCore (n + 1) n []

/-- Well-founded reference version of `natChars`, used in proofs. -/
def natCharsWF (n : Nat) : List Char :=
  if n < 10 then [Nat.digitChar n]
  else natCharsWF (n / 10) ++ [Nat.digitChar (n % 10)]
decreasing_by exact Nat.div_lt_self (by omega) (by omega)

/-- Numeric value of a run of decimal digit characters (mirrors Python
`int(...)` on a digit string). -/
def charsToNat (ds : List Char) : Nat :=
  ds.foldl (fun a c => a * 10 + (c.toNat - 48)) 0

/-- Zero-padding to width 3 (mirrors Python `v:03d` formatting). -/
def pad3 (n : Nat) : List Char :=
  List.replicate (3 - (natChars n).length) '0' ++ natChars n

/-! ## The version-token regex `_VERSION_RE` and the rewriters `_parse_vr` / `_set_vr`

Hand-compiled matcher for the pattern consisting of a leading delimiter
(start of string, hyphen or underscore), a `v` or `V`, exactly three digits,
an `r` or `R`, one or more digits, and a trailing delimiter (hyphen,
underscore or end of string); case-insensitive as in the source.  Both
delimiters are part of the match, exactly as in the Python regex. -/

structure VRTok where
  lead : Option Char
  vchr : Char
  vds : List Char
  rchr : Char
  rds : List Char
  trail : Option Char
deriving DecidableEq, Repr

/-- The characters of the whole regex match (`m.group(0)` in the source). -/
def VRTok.chars (t : VRTok) : List Char :=
  t.lead.toList ++ t.vchr :: (t.vds ++ t.rchr :: (t.rds ++ t.trail.toList))

/-- Attempt the part of `_VERSION_RE` after the leading delimiter. -/
def tryVRBody (ld : Option Char) (s : List Char) : Option (VRTok × List Char) :=
  match s with
  | vc :: d1 :: d2 :: d3 :: rc :: rest =>
    if (vc = 'v' ∨ vc = 'V') ∧ d1.isDigit ∧ d2.isDigit ∧ d3.isDigit ∧ (rc = 'r' ∨ rc = 'R') then
      let ds := rest.takeWhile Char.isDigit
      let rest2 := rest.dropWhile Char.isDigit
      if ds = [] then none
      else
        match rest2 with
        | [] => some (⟨ld, vc, [d1, d2, d3], rc, ds, none⟩, [])
        | t :: rest3 =>
          if t = '-' ∨ t = '_' then some (⟨ld, vc, [d1, d2, d3], rc, ds, some t⟩, rest3)
          else none
    else none
  | _ => none

/-- Attempt `_VERSION_RE` anchored at the current position; `atStart` records
whether the `^` alternative of the leading group is available here. -/
def tryVR (atStart : Bool) (s : List Char) : Option (VRTok × List Char) :=
  match (if atStart then tryVRBody none s else none) with
  | some res => some res
  | none =>
    match s with
    | c :: rest => if c = '-' ∨ c = '_' then tryVRBody (some c) rest else none
    | [] => none

/-- `_VERSION_RE.search`: leftmost match, returned as
(characters before the match, match, characters after the match). -/
def findVRAux : List Char → Bool → Option (List Char × VRTok × List Char)
  | [], _ => none
  | c :: cs, atStart =>
    match tryVR atStart (c :: cs) with
    | some (tok, rest) => some ([], tok, rest)
    | none =>
      match findVRAux cs false with
      | some (pre, tok, rest) => some (c :: pre, tok, rest)
      | none => none

def findVR (s : List Char) : Option (List Char × VRTok × List Char) := findVRAux s true

/-- `_parse_vr` (returns `none` where the source raises `ValueError`). -/
def parse_vr (u : String) : Option (Nat × Nat) :=
  (findVR u.data).map fun x => (charsToNat x.2.1.vds, charsToNat x.2.1.rds)

/-- `_set_vr`: replace the first `_VERSION_RE` match, keeping a leading or
trailing hyphen of the match, exactly as the source's `repl` does. -/
def setVRchars (s : List Char) (v r : Nat) : List Char :=
  match findVR s with
  | none => s
  | some (pre, tok, post) =>
    pre ++ ((if tok.lead = some '-' then ['-'] else [])
        ++ 'v' :: (pad3 v ++ 'r' :: (natChars r
        ++ (if tok.trail = some '-' then ['-'] else [])))) ++ post

def set_vr (u : String) (v r : Nat) : String := ⟨setVRchars u.data v r⟩

/-! ## The quarter regex `_QTR_RE` and `_parse_quarter` / `_set_quarter` -/

structure QTok where
  yds : List Char
  qchr : Char
  qd : Char
deriving DecidableEq, Repr

def QTok.chars (t : QTok) : List Char := t.yds ++ t.qchr :: [t.qd]

/-- Attempt `_QTR_RE` (`20` two digits `q` one digit `1`-`4`) here. -/
def tryQ (s : List Char) : Option (QTok × List Char) :=
  match s with
  | a :: b :: c :: d :: e :: f :: rest =>
    if a = '2' ∧ b = '0' ∧ c.isDigit ∧ d.isDigit ∧ (e = 'q' ∨ e = 'Q')
        ∧ ('1' ≤ f ∧ f ≤ '4') then
      some (⟨[a, b, c, d], e, f⟩, rest)
    else none
  | _ => none

/-- `_QTR_RE.search`, leftmost match split. -/
def findQAux : List Char → Option (List Char × QTok × List Char)
  | [] => none
  | c :: cs =>
    match tryQ (c :: cs) with
    | some (tok, rest) => some ([], tok, rest)
    | none =>
      match findQAux cs with
      | some (pre, tok, rest) => some (c :: pre, tok, rest)
      | none => none

/-- `_parse_quarter` (`none` where the source raises `ValueError`). -/
def parse_quarter (u : String) : Option (Nat × Nat) :=
  (findQAux u.data).map fun x => (charsToNat x.2.1.yds, charsToNat [x.2.1.qd])

def setQchars (s : List Char) (y q : Nat) : List Char :=
  match findQAux s with
  | none => s
  | some (pre, _, post) => pre ++ (natChars y ++ 'q' :: natChars q) ++ post

/-- `_set_quarter`: replace the first quarter token by `y` `q` `q-digit`. -/
def set_quarter (u : String) (y q : Nat) : String := ⟨setQchars u.data y q⟩

/-! ## The file-number regex `_F_RE` and `_with_f` -/

structure FTok where
  fchr : Char
  fd : Char
deriving DecidableEq, Repr

def FTok.chars (t : FTok) : List Char := '-' :: t.fchr :: [t.fd]

/-- The lookahead `(?=\.zip|[-_])` of `_F_RE` (not consumed). -/
def fLookahead : List Char → Bool
  | a :: b :: c :: d :: _ =>
    ((a == '.') && (b == 'z' || b == 'Z') && (c == 'i' || c == 'I')
      && (d == 'p' || d == 'P'))
    || (a == '-' || a == '_')
  | a :: _ => a == '-' || a == '_'
  | [] => false

/-- Attempt `_F_RE` (`-f` then `1` or `2`, followed by the lookahead) here. -/
def tryF (s : List Char) : Option (FTok × List Char) :=
  match s with
  | h :: fc :: n :: rest =>
    if h = '-' ∧ (fc = 'f' ∨ fc = 'F') ∧ (n = '1' ∨ n = '2') ∧ fLookahead rest = true then
      some (⟨fc, n⟩, rest)
    else none
  | _ => none

/-- `_F_RE.search`, leftmost match split (the lookahead stays in the tail). -/
def findFAux : List Char → Option (List Char × FTok × List Char)
  | [] => none
  | c :: cs =>
    match tryF (c :: cs) with
    | some (tok, rest) => some ([], tok, rest)
    | none =>
      match findFAux cs with
      | some (pre, tok, rest) => some (c :: pre, tok, rest)
      | none => none

/-- Does the URL end in `.zip` (case-insensitively), for the fallback branch
of `_with_f` (the regex `\.zip$`)? -/
def endsDotZip (s : List Char) : Bool :=
  match s.reverse with
  | p :: i :: z :: d :: _ =>
    (d == '.') && (z == 'z' || z == 'Z') && (i == 'i' || i == 'I') && (p == 'p' || p == 'P')
  | _ => false

def withFchars (s : List Char) (n : Nat) : List Char :=
  match findFAux s with
  | some (pre, _, post) => pre ++ ('-' :: 'f' :: natChars n) ++ post
  | none =>
    if endsDotZip s then
      s.take (s.length - 4) ++ ('-' :: 'f' :: natChars n) ++ ['.', 'z', 'i', 'p']
    else s

/-- `_with_f`: rewrite the `-f` segment, or append one before a final
`.zip`, or leave the URL unchanged when neither applies. -/
def with_f (u : String) (n : Nat) : String := ⟨withFchars u.data n⟩

/-! ## Version-marker text: `_read_local_version` parsing and
`_write_local_version` rendering -/

/-- Python's `\s` class / `str.strip` whitespace (ASCII part). -/
def isSpaceChar (c : Char) : Bool :=
  c == ' ' || c == '\t' || c == '\n' || c == '\r' || c == '\x0b' || c == '\x0c'

/-- `str.strip()`. -/
def stripChars (s : List Char) : List Char :=
  ((s.dropWhile isSpaceChar).reverse.dropWhile isSpaceChar).reverse

/-- The anchored marker pattern: four digits, `q`, one digit, whitespace,
`v`, three digits, `r`, one or more digits; a prefix match as `re.match`. -/
def matchMarker (s : List Char) : Option (Nat × Nat × Nat × Nat) :=
  match s with
  | a :: b :: c :: d :: e :: f :: rest =>
    if a.isDigit ∧ b.isDigit ∧ c.isDigit ∧ d.isDigit ∧ e = 'q' ∧ f.isDigit then
      let sp := rest.takeWhile isSpaceChar
      let rest2 := rest.dropWhile isSpaceChar
      if sp = [] then none
      else
        match rest2 with
        | v' :: g :: h :: i :: r' :: rest3 =>
          if v' = 'v' ∧ g.isDigit ∧ h.isDigit ∧ i.isDigit ∧ r' = 'r' then
            let ds := rest3.takeWhile Char.isDigit
            if ds = [] then none
            else some (charsToNat [a, b, c, d], charsToNat [f], charsToNat [g, h, i], charsToNat ds)
          else none
        | _ => none
    else none
  | _ => none

/-- The identifier text `y` `q` `quarter` ` v` `version, 3 digits` `r`
`revision` used in both status messages and the marker file. -/
def renderYQVR (y q v r : Nat) : String :=
  ⟨natChars y ++ 'q' :: natChars q ++ ' ' :: 'v' :: pad3 v ++ 'r' :: natChars r⟩

/-- The exact content `_write_local_version` stores in `version.txt`. -/
def markerText (y q v r : Nat) : String := renderYQVR y q v r ++ "\n"

/-! ## Output-path derivation `_combined_csv_path` -/

def startsWithChars : List Char → List Char → Bool
  | [], _ => true
  | _ :: _, [] => false
  | p :: ps, c :: cs => (p == c) && startsWithChars ps cs

/-- Case-insensitive: the pattern is given lowercase, the text is lowered. -/
def startsWithCI : List Char → List Char → Bool
  | [], _ => true
  | _ :: _, [] => false
  | p :: ps, c :: cs => (p == c.toLower) && startsWithCI ps cs

/-- The group of the leftmost `file=` followed by one-or-more non-`&`
characters (the regex `file=([^&]+)` in the source). -/
def findFileParam : List Char → Option (List Char)
  | [] => none
  | c :: cs =>
    if startsWithChars "file=".data (c :: cs) = true
        ∧ ((c :: cs).drop 5).takeWhile (fun x => x != '&') ≠ [] then
      some (((c :: cs).drop 5).takeWhile (fun x => x != '&'))
    else findFileParam cs

/-- `os.path.basename` on a POSIX path. -/
def baseNameChars (s : List Char) : List Char :=
  (s.reverse.takeWhile (fun c => c != '/')).reverse

/-- The stem part of `os.path.splitext` (leading dots never count). -/
def stemChars (name : List Char) : List Char :=
  let rev := name.reverse
  let rest := rev.dropWhile (fun c => c != '.')
  match rest with
  | [] => name
  | _ :: core => if core.any (fun c => c != '.') then core.reverse else name

/-- Strip a trailing `-f1` / `-f2` (the regex `-f[12]$`). -/
def stripF12 (stem : List Char) : List Char :=
  match stem.reverse with
  | n :: f :: h :: rest =>
    if (n = '1' ∨ n = '2') ∧ f = 'f' ∧ h = '-' then rest.reverse else stem
  | _ => stem

/-- The leftmost suffix matching `(ccipra-[^/\\]+)$`, case-insensitively. -/
def ccipraTail : List Char → Option (List Char)
  | [] => none
  | c :: cs =>
    if startsWithCI "ccipra-".data (c :: cs) = true ∧ (c :: cs).drop 7 ≠ []
        ∧ ((c :: cs).drop 7).all (fun x => x != '/' && x != '\\') = true then
      some (c :: cs)
    else ccipraTail cs

/-- `_combined_csv_path`, returning the output file name (the directory is
factored out); `none` where the source raises because `file=` is missing. -/
def combined_csv_path (u : String) : Option String :=
  (findFileParam u.data).map fun g =>
    let stem := stripF12 (stemChars (baseNameChars g))
    let final := (ccipraTail stem).getD stem
    ⟨final ++ "-f1f2.csv".data⟩

/-! ## Archive extraction `_extract_member` and the table model -/

def endsWithChars (sfx s : List Char) : Bool := startsWithChars sfx.reverse s.reverse

/-- Does a member name, lowercased, end in `.xlsx` or `.txt`? -/
def isDataMember (name : String) : Bool :=
  let low := name.data.map Char.toLower
  endsWithChars ".xlsx".data low || endsWithChars ".txt".data low

/-- `_extract_member`: the first matching member in listing order; `none`
where the source raises `FileNotFoundError`.  A zip payload is a list of
(member name, opaque member payload id). -/
def extract_member (z : List (String × Nat)) : Option (String × Nat) :=
  z.find? (fun p => isDataMember p.1)

/-- A parsed table: explicit column list, rows as per-column cell maps. -/
structure DF where
  cols : List String
  rows : List (List (String × String))
deriving DecidableEq, Repr

/-- The cell of a row under a column (missing cells read back empty, which
is how `to_csv` renders the NaN cells `reindex` introduces). -/
def cellOf (row : List (String × String)) (c : String) : String :=
  ((row.find? (fun p => p.1 == c)).map Prod.snd).getD ""

/-- `df.reindex(columns=allCols)` on one row. -/
def reindexRow (allCols : List String) (row : List (String × String)) :
    List (String × String) :=
  allCols.map fun c => (c, cellOf row c)

/-- `sorted(set().union(*(df.columns for df in dfs)))`. -/
def allColsOf (dfs : List DF) : List String :=
  ((dfs.map DF.cols).flatten.dedup).insertionSort (· ≤ ·)

/-- `_concat_dfs`. -/
def concat_dfs (dfs : List DF) : DF :=
  let ac := allColsOf dfs
  ⟨ac, (dfs.map (fun df => df.rows.map (reindexRow ac))).flatten⟩

/-! ## Candidate generation -/

structure Cand where
  y : Nat
  q : Nat
  v : Nat
  r : Nat
deriving DecidableEq, Repr

/-- `_next_quarter`. -/
def next_quarter (y q : Nat) : Nat × Nat := if q < 4 then (y, q + 1) else (y + 1, 1)

/-- The candidate list built in `download_or_skip_both_with_version`:
five next revisions, next version same quarter, then the two next-quarter
guesses. -/
def candidatesList (y q v r : Nat) : List Cand :=
  ((List.range 5).map fun i => ⟨y, q, v, r + 1 + i⟩)
    ++ [⟨y, q, v + 1, 0⟩]
    ++ [⟨(next_quarter y q).1, (next_quarter y q).2, v + 1, 0⟩,
        ⟨(next_quarter y q).1, (next_quarter y q).2, v, 0⟩]

/-! ## The orchestrator as an effect-trace semantics

Network fetches (`_fetch_zip_via_license`), pandas parsing of an extracted
member, `to_csv` success and the filesystem are oracle parameters; the run
produces the list of externally visible effects in order, plus either the
(path, status) pair or the propagated exception. -/

/-- State of `version.txt` on disk: absent, present but unreadable (reads
raise), or present with the given text. -/
inductive MarkerState
  | absent
  | unreadable
  | content (s : String)

inductive RunErr
  | ioError | missingVR | missingQ | noFileParam | notZip | noMember | parseFail | csvFail
deriving DecidableEq, Repr

inductive Eff
  | fetchCall (url : String)
  | csvWrite (path : String) (ok : Bool)
  | markerWrite (y q v r : Nat)
deriving DecidableEq, Repr

structure Env where
  fetch : String → Option (List (String × Nat))
  parseTable : String → Nat → Option DF
  csvOk : String → Bool
  fileExists : String → Bool

/-- `_read_local_version`: a missing file is `none`, a non-matching text is
`none`, and a file whose read raises propagates the exception. -/
def read_local_version : MarkerState → Except RunErr (Option (Nat × Nat × Nat × Nat))
  | .absent => .ok none
  | .unreadable => .error .ioError
  | .content s => .ok (matchMarker (stripChars s.data))

/-- The `if local: ... else:` identifier resolution at the top of the
orchestrator (URL parsing only in the else branch). -/
def resolveIds (base : String) :
    Option (Nat × Nat × Nat × Nat) → Except RunErr (Nat × Nat × Nat × Nat)
  | some t => .ok t
  | none =>
    match parse_vr base with
    | none => .error .missingVR
    | some (v, r) =>
      match parse_quarter base with
      | none => .error .missingQ
      | some (y, q) => .ok (y, q, v, r)

def resolveLocal (mk : MarkerState) (base : String) : Except RunErr (Nat × Nat × Nat × Nat) :=
  match read_local_version mk with
  | .error e => .error e
  | .ok lv => resolveIds base lv

/-- `_read_zip_to_df` applied to a fetch result: a falsy fetch result is the
`RuntimeError`, a zip without a data member the `FileNotFoundError`, and the
pandas parse is the oracle. -/
def read_zip_to_df (env : Env) : Option (List (String × Nat)) → Except RunErr DF
  | none => .error .notZip
  | some z =>
    match extract_member z with
    | none => .error .noMember
    | some (n, m) =>
      match env.parseTable n m with
      | none => .error .parseFail
      | some df => .ok df

/-- The candidate URL `_set_vr(_set_quarter(base, cy, cq), cv, cr)`. -/
def candUrl (base : String) (c : Cand) : String :=
  set_vr (set_quarter base c.y c.q) c.v c.r

/-- The probing loop: try each candidate, fetching its file-1 URL and then
(only if that succeeded, by `and` short-circuit) its file-2 URL; stop at the
first candidate with both fetches truthy. -/
def probe (env : Env) (base : String) :
    List Cand → List Eff × Option (Cand × String × String)
  | [] => ([], none)
  | c :: rest =>
    let f1 := with_f (candUrl base c) 1
    let f2 := with_f (candUrl base c) 2
    match env.fetch f1 with
    | none =>
      let pr := probe env base rest
      (.fetchCall f1 :: pr.1, pr.2)
    | some _ =>
      match env.fetch f2 with
      | none =>
        let pr := probe env base rest
        (.fetchCall f1 :: .fetchCall f2 :: pr.1, pr.2)
      | some _ => ([.fetchCall f1, .fetchCall f2], some (c, f1, f2))

/-- `download_or_skip_both_with_version`: the full orchestrator run. -/
def download_or_skip_both_with_version (env : Env) (mk : MarkerState) (base : String) :
    List Eff × Except RunErr (String × String) :=
  match resolveLocal mk base with
  | .error e => ([], .error e)
  | .ok (y, q, v, r) =>
    let pr := probe env base (candidatesList y q v r)
    let pt := pr.1
    match combined_csv_path base with
    | none => (pt, .error .noFileParam)
    | some csvPathB =>
      match pr.2 with
      | none =>
        if env.fileExists csvPathB then
          (pt, .ok (csvPathB, "Up to date — no newer release found."))
        else
          let f1 := with_f base 1
          let f2 := with_f base 2
          match read_zip_to_df env (env.fetch f1) with
          | .error e => (pt ++ [.fetchCall f1], .error e)
          | .ok dfA =>
            match read_zip_to_df env (env.fetch f2) with
            | .error e => (pt ++ [.fetchCall f1, .fetchCall f2], .error e)
            | .ok dfB =>
              let _df := concat_dfs [dfA, dfB]
              if env.csvOk csvPathB then
                (pt ++ [.fetchCall f1, .fetchCall f2, .csvWrite csvPathB true,
                        .markerWrite y q v r],
                 .ok (csvPathB, "Downloaded initial version " ++ renderYQVR y q v r ++ "."))
              else
                (pt ++ [.fetchCall f1, .fetchCall f2, .csvWrite csvPathB false],
                 .error .csvFail)
      | some (c, f1, f2) =>
        match read_zip_to_df env (env.fetch f1) with
        | .error e => (pt ++ [.fetchCall f1], .error e)
        | .ok dfA =>
          match read_zip_to_df env (env.fetch f2) with
          | .error e => (pt ++ [.fetchCall f1, .fetchCall f2], .error e)
          | .ok dfB =>
            let _df := concat_dfs [dfA, dfB]
            match combined_csv_path f1 with
            | none => (pt ++ [.fetchCall f1, .fetchCall f2], .error .noFileParam)
            | some csvPathU =>
              if env.csvOk csvPathU then
                (pt ++ [.fetchCall f1, .fetchCall f2, .csvWrite csvPathU true,
                        .markerWrite c.y c.q c.v c.r],
                 .ok (csvPathU, "Updated to " ++ renderYQVR c.y c.q c.v c.r ++ "."))
              else
                (pt ++ [.fetchCall f1, .fetchCall f2, .csvWrite csvPathU false],
                 .error .csvFail)

/-! ## The edit-pair loader `load_cci_table` of `app.py` -/

/-- Key normalisation: lowercase, keep only `a`-`z` and `0`-`9`. -/
def normKey (k : String) : String :=
  ⟨(k.data.map Char.toLower).filter (fun c => c.isLower || c.isDigit)⟩

def stripStr (v : String) : String := ⟨stripChars v.data⟩

/-- Lookup in the normalised-key dict comprehension (later duplicate
normalised keys overwrite earlier ones, as in a Python dict). -/
def dictGet (raw : List (String × String)) (k : String) : Option String :=
  ((raw.map (fun p => (normKey p.1, stripStr p.2))).reverse.find?
    (fun p => p.1 == k)).map Prod.snd

/-- Python `a or b or ... or ""`: first truthy (nonempty) value, else empty. -/
def orChain : List (Option String) → String
  | [] => ""
  | o :: rest =>
    match o with
    | some s => if s = "" then orChain rest else s
    | none => orChain rest

/-- The `c1`, `c2`, `mod` alias resolution for one CSV row. -/
def rowC1C2Mod (raw : List (String × String)) : String × String × String :=
  (orChain [dictGet raw "column1", dictGet raw "col1", dictGet raw "c1", dictGet raw "column"],
   orChain [dictGet raw "column2", dictGet raw "col2", dictGet raw "c2"],
   orChain [dictGet raw "modifier", dictGet raw "mod"])

/-- Insert/overwrite one key of the dict. -/
def insertPair (t : String × String → Option String) (k : String × String) (m : String) :
    String × String → Option String :=
  fun k' => if k' = k then some m else t k'

/-- `load_cci_table` over the parsed CSV rows (each row an association list
of raw header name to raw value). -/
def load_cci_table (rows : List (List (String × String))) :
    String × String → Option String :=
  rows.foldl (fun t raw =>
    let c := rowC1C2Mod raw
    if c.1 ≠ "" ∧ c.2.1 ≠ "" then
      insertPair (insertPair t (c.1, c.2.1) c.2.2) (c.2.1, c.1) c.2.2
    else t) (fun _ => none)

/-- Every key of every row comes from the table's own column list (true of
any data frame the parser produces). -/
def wfDF (df : DF) : Prop := ∀ row ∈ df.rows, ∀ p ∈ row, p.1 ∈ df.cols

def dfXY : DF := ⟨["X", "Y"], [[("X", "1"), ("Y", "2")]]⟩

def dfYZ : DF := ⟨["Y", "Z"], [[("Y", "3"), ("Z", "4")]]⟩

def symTable (t : String × String → Option String) : Prop :=
  ∀ a b, t (a, b) = t (b, a)

/-- A trace segment made of fetch calls only. -/
def fetchesOnly (l : List Eff) : Prop := ∀ e ∈ l, ∃ u, e = Eff.fetchCall u

/-! ## Concrete environments used by witnesses and counterexamples -/

def base1 : String := "file=x-2025q4-ccipra-v313r0-f1.zip"

def c1f1 : String := "file=x-2025q4-ccipra-v313r1-f1.zip"

def c1f2 : String := "file=x-2025q4-ccipra-v313r1-f2.zip"

def df0 : DF := ⟨["A"], [[("A", "x")]]⟩

def zipTxt : List (String × Nat) := [("a.txt", 0)]

def zipPdf : List (String × Nat) := [("a.pdf", 0)]

/-- Candidate 1 (revision 1) is available upstream; nothing on disk yet. -/
def envAccept : Env :=
  { fetch := fun u => if u = c1f1 ∨ u = c1f2 then some zipTxt else none,
    parseTable := fun _ _ => some df0, csvOk := fun _ => true,
    fileExists := fun _ => false }

/-- Every fetch fails; nothing on disk. -/
def envAllFail : Env :=
  { fetch := fun _ => none, parseTable := fun _ _ => some df0, csvOk := fun _ => true,
    fileExists := fun _ => false }

/-- Marker and base CSV in place, no newer release upstream. -/
def envUpToDate : Env :=
  { fetch := fun _ => none, parseTable := fun _ _ => some df0, csvOk := fun _ => true,
    fileExists := fun _ => true }

/-- Exactly the on-disk state an `envAccept` run leaves behind (marker text
written by its marker write, only the updated CSV on disk), with the base
release still downloadable but no candidate release available. -/
def envRerun : Env :=
  { fetch := fun u => if u = with_f base1 1 ∨ u = with_f base1 2 then some zipTxt else none,
    parseTable := fun _ _ => some df0, csvOk := fun _ => true,
    fileExists := fun s => s = "ccipra-v313r1-f1f2.csv" }

/-- Every fetch yields an archive whose only member is a `.pdf`. -/
def envPdf : Env :=
  { fetch := fun _ => some zipPdf, parseTable := fun _ _ => some df0, csvOk := fun _ => true,
    fileExists := fun _ => false }

/-- The fetches the probing loop issues for a rejected candidate: the file-1
URL, and the file-2 URL only when the file-1 fetch succeeded. -/
def failTrace (env : Env) (base : String) (c : Cand) : List Eff :=
  match env.fetch (with_f (candUrl base c) 1) with
  | none => [Eff.fetchCall (with_f (candUrl base c) 1)]
  | some _ => [Eff.fetchCall (with_f (candUrl base c) 1),
               Eff.fetchCall (with_f (candUrl base c) 2)]

theorem digitChar_toNat {n : Nat} (h : n < 10) :
    (Nat.digitChar n).toNat = 48 + n := by
  interval_cases n <;> rfl

theorem digitChar_isDigit {n : Nat} (h : n < 10) :
    (Nat.digitChar n).isDigit = true := by
  interval_cases n <;> rfl

theorem natCharsCore_eq_WF :
    ∀ (f n : Nat) (acc : List Char), n < 10 ^ (f + 1) →
      natCharsCore (f + 1) n acc = natCharsWF n ++ acc := by
  intro f
  induction f with
  | zero =>
    intro n acc h
    have hn : n < 10 := by simpa using h
    simp [natCharsCore, natCharsWF, hn]
  | succ f ih =>
    intro n acc h
    by_cases hn : n < 10
    · simp [natCharsCore, natCharsWF, hn]
    · have hdiv : n / 10 < 10 ^ (f + 1) := by
        have h10 : (0:Nat) < 10 := by omega
        rw [Nat.div_lt_iff_lt_mul h10]
        calc n < 10 ^ (f + 1 + 1) := h
        _ = 10 ^ (f + 1) * 10 := by ring
      have step : natCharsCore (f + 1 + 1) n acc
          = if n < 10 then Nat.digitChar n :: acc
            else natCharsCore (f + 1) (n / 10) (Nat.digitChar (n % 10) :: acc) := rfl
      rw [step, if_neg hn, ih (n / 10) (Nat.digitChar (n % 10) :: acc) hdiv]
      conv_rhs => rw [natCharsWF]
      simp [hn]

theorem natChars_eq_WF (n : Nat) : natChars n = natCharsWF n := by
  have hpow : n < 10 ^ (n + 1) := by
    calc n < 2 ^ n := Nat.lt_two_pow n
    _ ≤ 10 ^ n := Nat.pow_le_pow_left (by omega) n
    _ ≤ 10 ^ (n + 1) := Nat.pow_le_pow_right (by omega) (by omega)
  have := natCharsCore_eq_WF n n [] hpow
  simpa [natChars] using this

theorem natCharsWF_all_digits (n : Nat) :
    ∀ c ∈ natCharsWF n, c.isDigit = true := by
  induction n using Nat.strong_induction_on with
  | _ n ih =>
    rw [natCharsWF]
    by_cases hn : n < 10
    · simp only [if_pos hn, List.mem_singleton]
      rintro c rfl
      exact digitChar_isDigit hn
    · simp only [if_neg hn, List.mem_append, List.mem_singleton]
      rintro c (hc | rfl)
      · exact ih (n / 10) (Nat.div_lt_self (by omega) (by omega)) c hc
      · exact digitChar_isDigit (Nat.mod_lt _ (by omega))

theorem natChars_all_digits (n : Nat) :
    ∀ c ∈ natChars n, c.isDigit = true := by
  rw [natChars_eq_WF]; exact natCharsWF_all_digits n

theorem charsToNat_append (xs ys : List Char) :
    charsToNat (xs ++ ys) = ys.foldl (fun a c => a * 10 + (c.toNat - 48)) (charsToNat xs) := by
  simp [charsToNat, List.foldl_append]

theorem charsToNat_natCharsWF (n : Nat) : charsToNat (natCharsWF n) = n := by
  induction n using Nat.strong_induction_on with
  | _ n ih =>
    rw [natCharsWF]
    by_cases hn : n < 10
    · rw [if_pos hn]
      simp [charsToNat, digitChar_toNat hn]
    · simp only [if_neg hn]
      rw [charsToNat_append]
      have hm : n % 10 < 10 := Nat.mod_lt _ (by omega)
      simp only [List.foldl_cons, List.foldl_nil]
      rw [ih (n / 10) (Nat.div_lt_self (by omega) (by omega)), digitChar_toNat hm]
      omega

theorem charsToNat_natChars (n : Nat) : charsToNat (natChars n) = n := by
  rw [natChars_eq_WF]; exact charsToNat_natCharsWF n

theorem natCharsWF_length_le : ∀ (k n : Nat), 0 < k → n < 10 ^ k →
    (natCharsWF n).length ≤ k := by
  intro k
  induction k with
  | zero => omega
  | succ k ih =>
    intro n _ hn
    rw [natCharsWF]
    by_cases h10 : n < 10
    · rw [if_pos h10]
      simp
    · simp only [if_neg h10, List.length_append, List.length_singleton]
      have hk : 0 < k := by
        by_contra hk0
        have : k = 0 := by omega
        subst this
        simp at hn
        omega
      have hdiv : n / 10 < 10 ^ k := by
        rw [Nat.div_lt_iff_lt_mul (by omega : (0:Nat) < 10)]
        calc n < 10 ^ (k + 1) := hn
        _ = 10 ^ k * 10 := by ring
      have := ih (n / 10) hk hdiv
      omega

theorem charsToNat_cons_zero (l : List Char) : charsToNat ('0' :: l) = charsToNat l := by
  have h0 : (0 : Nat) * 10 + ('0'.toNat - 48) = 0 := by decide
  show List.foldl (fun a c => a * 10 + (c.toNat - 48)) (0 * 10 + ('0'.toNat - 48)) l
      = charsToNat l
  rw [h0]
  rfl

theorem charsToNat_replicate_zero (k : Nat) (ds : List Char) :
    charsToNat (List.replicate k '0' ++ ds) = charsToNat ds := by
  induction k with
  | zero => simp
  | succ k ih =>
    simp only [List.replicate_succ, List.cons_append]
    rw [charsToNat_cons_zero]
    exact ih

theorem charsToNat_pad3 (n : Nat) : charsToNat (pad3 n) = n := by
  rw [pad3, charsToNat_replicate_zero, charsToNat_natChars]

theorem pad3_length {n : Nat} (h : n < 1000) : (pad3 n).length = 3 := by
  have hle : (natChars n).length ≤ 3 := by
    rw [natChars_eq_WF]
    exact natCharsWF_length_le 3 n (by omega) (by omega)
  simp only [pad3, List.length_append, List.length_replicate]
  omega

theorem pad3_all_digits (n : Nat) : ∀ c ∈ pad3 n, c.isDigit = true := by
  intro c hc
  rw [pad3, List.mem_append] at hc
  rcases hc with hc | hc
  · have := List.eq_of_mem_replicate hc
    subst this; rfl
  · exact natChars_all_digits n c hc

/-! ## Claim C6: candidate generation -/

/-- C6: for every starting identifier with quarter between 1 and 4, the
candidate list is exactly the 8 candidates, in order: the five next
revisions, the next version at revision 0, then the next quarter (with year
roll-over: quarter + 1 if below 4, else year + 1 and quarter 1) first at the
next version and then at the same version, both at revision 0. -/
theorem candidate_generation_exact (y q v r : Nat) (h1 : 1 ≤ q) (h2 : q ≤ 4) :
    candidatesList y q v r =
      [⟨y, q, v, r + 1⟩, ⟨y, q, v, r + 2⟩, ⟨y, q, v, r + 3⟩, ⟨y, q, v, r + 4⟩,
       ⟨y, q, v, r + 5⟩, ⟨y, q, v + 1, 0⟩,
       ⟨if q < 4 then y else y + 1, if q < 4 then q + 1 else 1, v + 1, 0⟩,
       ⟨if q < 4 then y else y + 1, if q < 4 then q + 1 else 1, v, 0⟩]
    ∧ (candidatesList y q v r).length = 8 := by
  have hr : List.range 5 = [0, 1, 2, 3, 4] := rfl
  constructor
  · simp only [candidatesList, hr, List.map_cons, List.map_nil, next_quarter]
    by_cases hq : q < 4 <;> simp [hq]
  · simp [candidatesList]

theorem candidate_generation_exact_witness :
    candidatesList 2025 2 313 0 =
      [⟨2025, 2, 313, 1⟩, ⟨2025, 2, 313, 2⟩, ⟨2025, 2, 313, 3⟩, ⟨2025, 2, 313, 4⟩,
       ⟨2025, 2, 313, 5⟩, ⟨2025, 2, 314, 0⟩,
       ⟨if 2 < 4 then 2025 else 2026, if 2 < 4 then 3 else 1, 314, 0⟩,
       ⟨if 2 < 4 then 2025 else 2026, if 2 < 4 then 3 else 1, 313, 0⟩]
    ∧ (candidatesList 2025 2 313 0).length = 8 :=
  candidate_generation_exact 2025 2 313 0 (by decide) (by decide)

/-! ## Claim C7: the merge `_concat_dfs` -/

theorem cellOf_cons (a s : String) (rest : List (String × String)) (c : String) :
    cellOf ((a, s) :: rest) c = if a = c then s else cellOf rest c := by
  by_cases h : a = c
  · subst h
    simp [cellOf, List.find?]
  · have hb : (a == c) = false := by simp [h]
    simp [cellOf, List.find?, hb, h]

theorem cellOf_reindex (cols : List String) (row : List (String × String)) (c : String) :
    cellOf (reindexRow cols row) c = if c ∈ cols then cellOf row c else "" := by
  induction cols with
  | nil => simp [reindexRow, cellOf]
  | cons a cs ih =>
    rw [show reindexRow (a :: cs) row = (a, cellOf row a) :: reindexRow cs row from rfl,
        cellOf_cons, ih]
    by_cases hac : a = c
    · subst hac
      simp
    · rw [if_neg hac]
      by_cases hc : c ∈ cs
      · rw [if_pos hc, if_pos (List.mem_cons_of_mem _ hc)]
      · rw [if_neg hc, if_neg ?_]
        intro h
        rcases List.mem_cons.mp h with h | h
        · exact hac h.symm
        · exact hc h

theorem cellOf_eq_empty_of_no_key (row : List (String × String)) (c : String)
    (h : ∀ p ∈ row, p.1 ≠ c) : cellOf row c = "" := by
  have : row.find? (fun p => p.1 == c) = none := by
    rw [List.find?_eq_none]
    intro p hp
    simp [h p hp]
  simp [cellOf, this]

/-- C7: merging two tables gives the sorted, duplicate-free union of the
column lists; the rows are all of the first table's rows reindexed, in
order, then all of the second table's rows reindexed, in order (no
deduplication); and a cell under a column absent from its row's source
table is the empty string. -/
theorem merge_sorted_union_rows (A B : DF) (hA : wfDF A) (hB : wfDF B) :
    ((concat_dfs [A, B]).cols.Sorted (· ≤ ·)
      ∧ (concat_dfs [A, B]).cols.Nodup
      ∧ ∀ c, c ∈ (concat_dfs [A, B]).cols ↔ (c ∈ A.cols ∨ c ∈ B.cols))
    ∧ (concat_dfs [A, B]).rows
        = A.rows.map (reindexRow (concat_dfs [A, B]).cols)
          ++ B.rows.map (reindexRow (concat_dfs [A, B]).cols)
    ∧ (∀ row ∈ A.rows, ∀ c, c ∉ A.cols →
        cellOf (reindexRow (concat_dfs [A, B]).cols row) c = "")
    ∧ (∀ row ∈ B.rows, ∀ c, c ∉ B.cols →
        cellOf (reindexRow (concat_dfs [A, B]).cols row) c = "") := by
  have hperm : ∀ (l : List String),
      List.Perm (List.insertionSort (· ≤ ·) l) l := fun l => List.perm_insertionSort _ l
  refine ⟨⟨?_, ?_, ?_⟩, ?_, ?_, ?_⟩
  · exact List.sorted_insertionSort _ _
  · exact ((hperm _).nodup_iff).2 (List.nodup_dedup _)
  · intro c
    show c ∈ allColsOf [A, B] ↔ _
    simp only [allColsOf]
    rw [(hperm _).mem_iff]
    simp [List.mem_dedup]
  · simp [concat_dfs]
  · intro row hrow c hc
    rw [cellOf_reindex]
    by_cases hm : c ∈ (concat_dfs [A, B]).cols
    · rw [if_pos hm]
      exact cellOf_eq_empty_of_no_key row c fun p hp hpc =>
        hc (hpc ▸ hA row hrow p hp)
    · rw [if_neg hm]
  · intro row hrow c hc
    rw [cellOf_reindex]
    by_cases hm : c ∈ (concat_dfs [A, B]).cols
    · rw [if_pos hm]
      exact cellOf_eq_empty_of_no_key row c fun p hp hpc =>
        hc (hpc ▸ hB row hrow p hp)
    · rw [if_neg hm]

theorem merge_sorted_union_rows_witness :
    (concat_dfs [dfXY, dfYZ]).rows
        = dfXY.rows.map (reindexRow (concat_dfs [dfXY, dfYZ]).cols)
          ++ dfYZ.rows.map (reindexRow (concat_dfs [dfXY, dfYZ]).cols)
    ∧ cellOf (reindexRow (concat_dfs [dfXY, dfYZ]).cols [("X", "1"), ("Y", "2")]) "Z" = "" :=
  ⟨(merge_sorted_union_rows dfXY dfYZ (by unfold wfDF; decide) (by unfold wfDF; decide)).2.1,
   (merge_sorted_union_rows dfXY dfYZ (by unfold wfDF; decide) (by unfold wfDF; decide)).2.2.1
     [("X", "1"), ("Y", "2")] (by decide) "Z" (by decide)⟩

/-! ## Claim C10: symmetry of the loaded edit-pair table -/

theorem symTable_insert (t : String × String → Option String) (a b : String) (m : String)
    (h : symTable t) : symTable (insertPair (insertPair t (a, b) m) (b, a) m) := by
  intro x y
  show (if (x, y) = (b, a) then some m
        else if (x, y) = (a, b) then some m else t (x, y))
      = (if (y, x) = (b, a) then some m
        else if (y, x) = (a, b) then some m else t (y, x))
  by_cases h1 : (x, y) = (b, a)
  · rw [if_pos h1]
    have h1' : (y, x) = (a, b) := by
      injection h1 with hx hy
      subst hx; subst hy; rfl
    by_cases h2 : (y, x) = (b, a)
    · rw [if_pos h2]
    · rw [if_neg h2, if_pos h1']
  · rw [if_neg h1]
    by_cases h2 : (x, y) = (a, b)
    · rw [if_pos h2]
      have h2' : (y, x) = (b, a) := by
        injection h2 with hx hy
        subst hx; subst hy; rfl
      rw [if_pos h2']
    · rw [if_neg h2]
      have h1' : (y, x) ≠ (b, a) := by
        intro hh
        apply h2
        injection hh with hy hx
        subst hy; subst hx; rfl
      have h2' : (y, x) ≠ (a, b) := by
        intro hh
        apply h1
        injection hh with hy hx
        subst hy; subst hx; rfl
      rw [if_neg h1', if_neg h2']
      exact h x y

theorem load_cci_table_symTable (rows : List (List (String × String))) :
    symTable (load_cci_table rows) := by
  suffices h : ∀ (t : String × String → Option String), symTable t →
      symTable (rows.foldl (fun t raw =>
        let c := rowC1C2Mod raw
        if c.1 ≠ "" ∧ c.2.1 ≠ "" then
          insertPair (insertPair t (c.1, c.2.1) c.2.2) (c.2.1, c.1) c.2.2
        else t) t) by
    exact h (fun _ => none) (fun _ _ => rfl)
  induction rows with
  | nil => intro t ht; exact ht
  | cons raw rest ih =>
    intro t ht
    simp only [List.foldl_cons]
    apply ih
    by_cases hc : (rowC1C2Mod raw).1 ≠ "" ∧ (rowC1C2Mod raw).2.1 ≠ ""
    · simp only [if_pos hc]
      exact symTable_insert t _ _ _ ht
    · simp only [if_neg hc]
      exact ht

/-- C10: whenever a key pair is present in the table `load_cci_table`
builds, the reversed pair is present too and maps to the same modifier. -/
theorem load_cci_table_symmetric (rows : List (List (String × String)))
    (c1 c2 m : String) (h : load_cci_table rows (c1, c2) = some m) :
    load_cci_table rows (c2, c1) = some m := by
  rw [load_cci_table_symTable rows c2 c1]
  exact h

theorem load_cci_table_symmetric_witness :
    load_cci_table [[("Column 1", "11111"), ("Column 2", "22222"), ("Modifier", "1")]]
      ("22222", "11111") = some "1" :=
  load_cci_table_symmetric _ "11111" "22222" "1" (by decide)

/-! ## Trace lemmas for the orchestrator -/

theorem probe_fetch_only (env : Env) (base : String) :
    ∀ (cs : List Cand), fetchesOnly (probe env base cs).1 := by
  intro cs
  induction cs with
  | nil =>
    intro e he
    simp [probe] at he
  | cons c rest ih =>
    intro e he
    simp only [probe] at he
    cases hf1 : env.fetch (with_f (candUrl base c) 1) with
    | none =>
      rw [hf1] at he
      simp only [List.mem_cons] at he
      rcases he with rfl | he
      · exact ⟨_, rfl⟩
      · exact ih e he
    | some z1 =>
      rw [hf1] at he
      cases hf2 : env.fetch (with_f (candUrl base c) 2) with
      | none =>
        rw [hf2] at he
        simp only [List.mem_cons] at he
        rcases he with rfl | he
        · exact ⟨_, rfl⟩
        rcases he with rfl | he
        · exact ⟨_, rfl⟩
        · exact ih e he
      | some z2 =>
        rw [hf2] at he
        simp only [List.mem_cons, List.not_mem_nil, or_false] at he
        rcases he with rfl | rfl
        · exact ⟨_, rfl⟩
        · exact ⟨_, rfl⟩

theorem fetchesOnly_append {l1 l2 : List Eff} (h1 : fetchesOnly l1) (h2 : fetchesOnly l2) :
    fetchesOnly (l1 ++ l2) := by
  intro e he
  rcases List.mem_append.mp he with h | h
  exacts [h1 e h, h2 e h]

theorem fetchesOnly_two (a b : String) :
    fetchesOnly [Eff.fetchCall a, Eff.fetchCall b] := by
  intro e he
  simp only [List.mem_cons, List.not_mem_nil, or_false] at he
  rcases he with rfl | rfl
  exacts [⟨_, rfl⟩, ⟨_, rfl⟩]

theorem fetchesOnly_one (a : String) : fetchesOnly [Eff.fetchCall a] := by
  intro e he
  simp only [List.mem_cons, List.not_mem_nil, or_false] at he
  subst he
  exact ⟨_, rfl⟩

theorem fetchesOnly_nil : fetchesOnly [] := by
  intro e he
  simp at he

theorem fetchesOnly_no_marker {l : List Eff} (h : fetchesOnly l)
    (y q v r : Nat) : Eff.markerWrite y q v r ∉ l := by
  intro hmem
  obtain ⟨u, hu⟩ := h _ hmem
  exact Eff.noConfusion hu

theorem fetchesOnly_no_csv {l : List Eff} (h : fetchesOnly l)
    (p : String) (b : Bool) : Eff.csvWrite p b ∉ l := by
  intro hmem
  obtain ⟨u, hu⟩ := h _ hmem
  exact Eff.noConfusion hu

theorem marker_unique_split (a b c d : Nat) :
    ∀ (xs pre suf : List Eff) (y q v r : Nat),
      (∀ y' q' v' r', Eff.markerWrite y' q' v' r' ∉ xs) →
      xs ++ [Eff.markerWrite a b c d] = pre ++ Eff.markerWrite y q v r :: suf →
      pre = xs := by
  intro xs
  induction xs with
  | nil =>
    intro pre suf y q v r _ h
    cases pre with
    | nil => rfl
    | cons e pre' =>
      simp only [List.nil_append, List.cons_append, List.cons.injEq] at h
      obtain ⟨-, h2⟩ := h
      exact absurd h2.symm (by simp)
  | cons x xs' ih =>
    intro pre suf y q v r hno h
    cases pre with
    | nil =>
      simp only [List.cons_append, List.nil_append, List.cons.injEq] at h
      obtain ⟨h1, -⟩ := h
      exact absurd (by rw [← h1]; exact List.mem_cons_self x xs') (hno y q v r)
    | cons e pre' =>
      simp only [List.cons_append, List.cons.injEq] at h
      obtain ⟨h1, h2⟩ := h
      have hno' : ∀ y' q' v' r', Eff.markerWrite y' q' v' r' ∉ xs' := by
        intro y' q' v' r' hmem
        exact hno y' q' v' r' (List.mem_cons_of_mem _ hmem)
      rw [ih pre' suf y q v r hno' h2, h1]

/-- The shape of every run: a fetch-only probe segment, a fetch-only data
segment, then either nothing, a failed table write that aborts the run, or a
successful table write immediately followed by the marker write. -/
theorem run_master (env : Env) (mk : MarkerState) (base : String) :
    ∃ (pt fx tail : List Eff),
      (download_or_skip_both_with_version env mk base).1 = pt ++ fx ++ tail
      ∧ fetchesOnly (pt ++ fx)
      ∧ (tail = []
          ∨ (∃ p, tail = [Eff.csvWrite p false]
              ∧ (download_or_skip_both_with_version env mk base).2 = Except.error RunErr.csvFail)
          ∨ (∃ p a' b' c' d', tail = [Eff.csvWrite p true, Eff.markerWrite a' b' c' d']))
      ∧ (∀ e, (download_or_skip_both_with_version env mk base).2 = Except.error e →
          e = RunErr.csvFail ∨ tail = []) := by
  unfold download_or_skip_both_with_version
  cases hres : resolveLocal mk base with
  | error e =>
    exact ⟨[], [], [], by simp [*], fetchesOnly_nil, Or.inl rfl, fun e' _ => Or.inr rfl⟩
  | ok t =>
    obtain ⟨y0, q0, v0, r0⟩ := t
    have hpo := probe_fetch_only env base (candidatesList y0 q0 v0 r0)
    rcases hpr : probe env base (candidatesList y0 q0 v0 r0) with ⟨pt, tgt⟩
    rw [hpr] at hpo
    simp only [hpr]
    cases hcp : combined_csv_path base with
    | none =>
      exact ⟨pt, [], [], by simp [*], by simpa using hpo, Or.inl rfl, fun e' _ => Or.inr rfl⟩
    | some csvPathB =>
      cases tgt with
      | none =>
        cases hex : env.fileExists csvPathB with
        | true =>
          exact ⟨pt, [], [], by simp [*], by simpa using hpo, Or.inl rfl, fun e' _ => Or.inr rfl⟩
        | false =>
          cases hr1 : read_zip_to_df env (env.fetch (with_f base 1)) with
          | error e1 =>
            exact ⟨pt, [Eff.fetchCall (with_f base 1)], [], by simp [*],
              fetchesOnly_append hpo (fetchesOnly_one _), Or.inl rfl, fun e' _ => Or.inr rfl⟩
          | ok dfA =>
            cases hr2 : read_zip_to_df env (env.fetch (with_f base 2)) with
            | error e2 =>
              exact ⟨pt, [Eff.fetchCall (with_f base 1), Eff.fetchCall (with_f base 2)], [],
                by simp [*], fetchesOnly_append hpo (fetchesOnly_two _ _), Or.inl rfl,
                fun e' _ => Or.inr rfl⟩
            | ok dfB =>
              cases hok : env.csvOk csvPathB with
              | true =>
                refine ⟨pt, [Eff.fetchCall (with_f base 1), Eff.fetchCall (with_f base 2)],
                  [Eff.csvWrite csvPathB true, Eff.markerWrite y0 q0 v0 r0],
                  by simp [*], fetchesOnly_append hpo (fetchesOnly_two _ _),
                  Or.inr (Or.inr ⟨csvPathB, y0, q0, v0, r0, rfl⟩), ?_⟩
                intro e' he'
                simp [*] at he'
              | false =>
                refine ⟨pt, [Eff.fetchCall (with_f base 1), Eff.fetchCall (with_f base 2)],
                  [Eff.csvWrite csvPathB false],
                  by simp [*], fetchesOnly_append hpo (fetchesOnly_two _ _),
                  Or.inr (Or.inl ⟨csvPathB, rfl, by simp [*]⟩), ?_⟩
                intro e' he'
                simp [*] at he'
                exact Or.inl he'.symm
      | some tg =>
        obtain ⟨c, f1, f2⟩ := tg
        cases hr1 : read_zip_to_df env (env.fetch f1) with
        | error e1 =>
          exact ⟨pt, [Eff.fetchCall f1], [], by simp [*],
            fetchesOnly_append hpo (fetchesOnly_one _), Or.inl rfl, fun e' _ => Or.inr rfl⟩
        | ok dfA =>
          cases hr2 : read_zip_to_df env (env.fetch f2) with
          | error e2 =>
            exact ⟨pt, [Eff.fetchCall f1, Eff.fetchCall f2], [], by simp [*],
              fetchesOnly_append hpo (fetchesOnly_two _ _), Or.inl rfl,
              fun e' _ => Or.inr rfl⟩
          | ok dfB =>
            cases hcpu : combined_csv_path f1 with
            | none =>
              exact ⟨pt, [Eff.fetchCall f1, Eff.fetchCall f2], [], by simp [*],
                fetchesOnly_append hpo (fetchesOnly_two _ _), Or.inl rfl,
                fun e' _ => Or.inr rfl⟩
            | some csvPathU =>
              cases hok : env.csvOk csvPathU with
              | true =>
                refine ⟨pt, [Eff.fetchCall f1, Eff.fetchCall f2],
                  [Eff.csvWrite csvPathU true, Eff.markerWrite c.y c.q c.v c.r],
                  by simp [*], fetchesOnly_append hpo (fetchesOnly_two _ _),
                  Or.inr (Or.inr ⟨csvPathU, c.y, c.q, c.v, c.r, rfl⟩), ?_⟩
                intro e' he'
                simp [*] at he'
              | false =>
                refine ⟨pt, [Eff.fetchCall f1, Eff.fetchCall f2],
                  [Eff.csvWrite csvPathU false],
                  by simp [*], fetchesOnly_append hpo (fetchesOnly_two _ _),
                  Or.inr (Or.inl ⟨csvPathU, rfl, by simp [*]⟩), ?_⟩
                intro e' he'
                simp [*] at he'
                exact Or.inl he'.symm

/-! ## Claim C1: marker write strictly after a successful table write -/

/-- C1: in every run, wherever the trace contains a marker write, the
effects before it end in a successful table write — the marker is never
updated while the table write failed or has not yet happened, in either the
bootstrap branch or the update branch. -/
theorem marker_write_after_table_write (env : Env) (mk : MarkerState) (base : String)
    (pre suf : List Eff) (y q v r : Nat)
    (h : (download_or_skip_both_with_version env mk base).1
        = pre ++ Eff.markerWrite y q v r :: suf) :
    ∃ p pre', pre = pre' ++ [Eff.csvWrite p true] := by
  obtain ⟨pt, fx, tail, htr, hfo, hshape, -⟩ := run_master env mk base
  rw [htr] at h
  rcases hshape with rfl | ⟨p, rfl, -⟩ | ⟨p, a', b', c', d', rfl⟩
  · exfalso
    have hmem : Eff.markerWrite y q v r ∈ pt ++ fx ++ ([] : List Eff) := by
      rw [h]; simp
    simp only [List.append_nil] at hmem
    exact fetchesOnly_no_marker hfo y q v r hmem
  · exfalso
    have hmem : Eff.markerWrite y q v r ∈ pt ++ fx ++ [Eff.csvWrite p false] := by
      rw [h]; simp
    rcases List.mem_append.mp hmem with hm | hm
    · exact fetchesOnly_no_marker hfo y q v r hm
    · simp at hm
  · have htr2 : pt ++ fx ++ [Eff.csvWrite p true, Eff.markerWrite a' b' c' d']
        = (pt ++ fx ++ [Eff.csvWrite p true]) ++ [Eff.markerWrite a' b' c' d'] := by
      simp
    rw [htr2] at h
    have hno : ∀ y' q' v' r',
        Eff.markerWrite y' q' v' r' ∉ pt ++ fx ++ [Eff.csvWrite p true] := by
      intro y' q' v' r' hmem
      rcases List.mem_append.mp hmem with hm | hm
      · exact fetchesOnly_no_marker hfo y' q' v' r' hm
      · simp at hm
    exact ⟨p, pt ++ fx,
      marker_unique_split a' b' c' d' (pt ++ fx ++ [Eff.csvWrite p true]) pre suf y q v r
        hno h⟩

theorem marker_write_after_table_write_witness :
    ∃ p pre',
      [Eff.fetchCall c1f1, Eff.fetchCall c1f2, Eff.fetchCall c1f1, Eff.fetchCall c1f2,
        Eff.csvWrite "ccipra-v313r1-f1f2.csv" true] = pre' ++ [Eff.csvWrite p true] :=
  marker_write_after_table_write envAccept MarkerState.absent base1
    [Eff.fetchCall c1f1, Eff.fetchCall c1f2, Eff.fetchCall c1f1, Eff.fetchCall c1f2,
      Eff.csvWrite "ccipra-v313r1-f1f2.csv" true] [] 2025 4 313 1 (by rfl)

/-! ## Claim C9: extraction/parsing failures abort with no write at all -/

/-- C9: a run whose result is the no-data-member error or the parse error
aborts with that error and writes neither the merged table file nor the
version marker: its trace holds no write effect of either kind. -/
theorem extract_or_parse_failure_aborts_clean (env : Env) (mk : MarkerState) (base : String)
    (tr : List Eff) (e : RunErr)
    (h : download_or_skip_both_with_version env mk base = (tr, Except.error e))
    (he : e = RunErr.noMember ∨ e = RunErr.parseFail) :
    (∀ p b, Eff.csvWrite p b ∉ tr) ∧ (∀ y q v r, Eff.markerWrite y q v r ∉ tr) := by
  obtain ⟨pt, fx, tail, htr, hfo, -, himp⟩ := run_master env mk base
  have hres : (download_or_skip_both_with_version env mk base).2 = Except.error e := by
    rw [h]
  have h1 : tr = pt ++ fx ++ tail := by
    rw [← htr, h]
  have htail : tail = [] := by
    rcases himp e hres with hcsv | htail
    · rcases he with rfl | rfl
      · exact RunErr.noConfusion hcsv
      · exact RunErr.noConfusion hcsv
    · exact htail
  subst htail
  rw [h1]
  constructor
  · intro p b hmem
    simp only [List.append_nil] at hmem
    exact fetchesOnly_no_csv hfo p b hmem
  · intro y q v r hmem
    simp only [List.append_nil] at hmem
    exact fetchesOnly_no_marker hfo y q v r hmem

theorem extract_or_parse_failure_aborts_clean_witness :
    Eff.csvWrite "ccipra-v313r1-f1f2.csv" true
        ∉ (download_or_skip_both_with_version envPdf MarkerState.absent base1).1
    ∧ Eff.markerWrite 2025 4 313 1
        ∉ (download_or_skip_both_with_version envPdf MarkerState.absent base1).1 :=
  ⟨(extract_or_parse_failure_aborts_clean envPdf MarkerState.absent base1
      (download_or_skip_both_with_version envPdf MarkerState.absent base1).1 RunErr.noMember
      (by rfl) (Or.inl rfl)).1 "ccipra-v313r1-f1f2.csv" true,
   (extract_or_parse_failure_aborts_clean envPdf MarkerState.absent base1
      (download_or_skip_both_with_version envPdf MarkerState.absent base1).1 RunErr.noMember
      (by rfl) (Or.inl rfl)).2 2025 4 313 1⟩

/-! ## Claim C2: what probing fetches, and the short-circuits -/

theorem probe_accept_spec (env : Env) (base : String) :
    ∀ (cs : List Cand) (pt : List Eff) (c : Cand) (f1 f2 : String),
      probe env base cs = (pt, some (c, f1, f2)) →
      ∃ pre post, cs = pre ++ c :: post
        ∧ f1 = with_f (candUrl base c) 1 ∧ f2 = with_f (candUrl base c) 2
        ∧ (∀ c' ∈ pre, env.fetch (with_f (candUrl base c') 1) = none
            ∨ env.fetch (with_f (candUrl base c') 2) = none)
        ∧ (env.fetch f1).isSome = true ∧ (env.fetch f2).isSome = true
        ∧ pt = (pre.map (failTrace env base)).flatten
            ++ [Eff.fetchCall f1, Eff.fetchCall f2] := by
  intro cs
  induction cs with
  | nil =>
    intro pt c f1 f2 h
    simp [probe] at h
  | cons c0 rest ih =>
    intro pt c f1 f2 h
    simp only [probe] at h
    cases hf1 : env.fetch (with_f (candUrl base c0) 1) with
    | none =>
      rw [hf1] at h
      rcases hpr : probe env base rest with ⟨pt', tgt'⟩
      rw [hpr] at h
      simp only [Prod.mk.injEq] at h
      obtain ⟨hpt, htgt⟩ := h
      subst hpt
      obtain ⟨pre, post, hcs, hf1e, hf2e, hfail, hs1, hs2, hptE⟩ :=
        ih pt' c f1 f2 (by rw [hpr, htgt])
      refine ⟨c0 :: pre, post, by simp [hcs], hf1e, hf2e, ?_, hs1, hs2, ?_⟩
      · intro c' hc'
        rcases List.mem_cons.mp hc' with rfl | hc'
        · exact Or.inl hf1
        · exact hfail c' hc'
      · rw [hptE]
        simp [failTrace, hf1]
    | some z1 =>
      rw [hf1] at h
      cases hf2 : env.fetch (with_f (candUrl base c0) 2) with
      | none =>
        rw [hf2] at h
        rcases hpr : probe env base rest with ⟨pt', tgt'⟩
        rw [hpr] at h
        simp only [Prod.mk.injEq] at h
        obtain ⟨hpt, htgt⟩ := h
        subst hpt
        obtain ⟨pre, post, hcs, hf1e, hf2e, hfail, hs1, hs2, hptE⟩ :=
          ih pt' c f1 f2 (by rw [hpr, htgt])
        refine ⟨c0 :: pre, post, by simp [hcs], hf1e, hf2e, ?_, hs1, hs2, ?_⟩
        · intro c' hc'
          rcases List.mem_cons.mp hc' with rfl | hc'
          · exact Or.inr hf2
          · exact hfail c' hc'
        · rw [hptE]
          simp [failTrace, hf1]
      | some z2 =>
        rw [hf2] at h
        simp only [Prod.mk.injEq, Option.some.injEq] at h
        obtain ⟨hpt, hc, hf1e, hf2e⟩ := h
        subst hc
        subst hf1e
        subst hf2e
        subst hpt
        exact ⟨[], rest, rfl, rfl, rfl, by simp, by simp [hf1], by simp [hf2], by simp⟩

/-- C2 (amended): for each candidate in priority order the loop fetches the
file-1 URL, fetches the file-2 URL only when the file-1 fetch succeeded, and
accepts exactly when both succeed; after the accepted candidate no fetch is
issued in the whole run except re-fetching the accepted pair itself. -/
theorem probe_pair_shortcircuit (env : Env) (mk : MarkerState) (base : String)
    (cs : List Cand) (pt : List Eff) (c : Cand) (f1 f2 : String)
    (h : probe env base cs = (pt, some (c, f1, f2))) :
    (∃ pre post, cs = pre ++ c :: post
      ∧ f1 = with_f (candUrl base c) 1 ∧ f2 = with_f (candUrl base c) 2
      ∧ (∀ c' ∈ pre, env.fetch (with_f (candUrl base c') 1) = none
          ∨ env.fetch (with_f (candUrl base c') 2) = none)
      ∧ (env.fetch f1).isSome = true ∧ (env.fetch f2).isSome = true
      ∧ pt = (pre.map (failTrace env base)).flatten
          ++ [Eff.fetchCall f1, Eff.fetchCall f2])
    ∧ (∀ y q v r, resolveLocal mk base = Except.ok (y, q, v, r) →
        cs = candidatesList y q v r →
        ∀ u, Eff.fetchCall u ∈ (download_or_skip_both_with_version env mk base).1 →
          Eff.fetchCall u ∈ pt ∨ u = f1 ∨ u = f2) := by
  constructor
  · exact probe_accept_spec env base cs pt c f1 f2 h
  · intro y q v r hres hcs u hu
    subst hcs
    unfold download_or_skip_both_with_version at hu
    rw [hres] at hu
    simp only [h] at hu
    cases hcp : combined_csv_path base with
    | none =>
      simp only [hcp] at hu
      exact Or.inl hu
    | some csvPathB =>
      simp only [hcp] at hu
      cases hr1 : read_zip_to_df env (env.fetch f1) with
      | error e1 =>
        simp only [hr1] at hu
        rcases List.mem_append.mp hu with hm | hm
        · exact Or.inl hm
        · simp at hm
          exact Or.inr (Or.inl hm)
      | ok dfA =>
        simp only [hr1] at hu
        cases hr2 : read_zip_to_df env (env.fetch f2) with
        | error e2 =>
          simp only [hr2] at hu
          rcases List.mem_append.mp hu with hm | hm
          · exact Or.inl hm
          · simp at hm
            rcases hm with rfl | rfl
            · exact Or.inr (Or.inl rfl)
            · exact Or.inr (Or.inr rfl)
        | ok dfB =>
          simp only [hr2] at hu
          cases hcpu : combined_csv_path f1 with
          | none =>
            simp only [hcpu] at hu
            rcases List.mem_append.mp hu with hm | hm
            · exact Or.inl hm
            · simp at hm
              rcases hm with rfl | rfl
              · exact Or.inr (Or.inl rfl)
              · exact Or.inr (Or.inr rfl)
          | some csvPathU =>
            simp only [hcpu] at hu
            by_cases hok : env.csvOk csvPathU = true
            · rw [if_pos hok] at hu
              rcases List.mem_append.mp hu with hm | hm
              · exact Or.inl hm
              · simp at hm
                rcases hm with rfl | rfl
                · exact Or.inr (Or.inl rfl)
                · exact Or.inr (Or.inr rfl)
            · rw [if_neg hok] at hu
              rcases List.mem_append.mp hu with hm | hm
              · exact Or.inl hm
              · simp at hm
                rcases hm with rfl | rfl
                · exact Or.inr (Or.inl rfl)
                · exact Or.inr (Or.inr rfl)

/-- C2 counterexample: with a stub fetcher on which every fetch fails, the
first candidate is probed (its file-1 URL is fetched) but its file-2 URL is
never fetched anywhere in the run — the loop does not attempt both URLs of
each candidate. -/
theorem probe_both_urls_counterexample :
    Eff.fetchCall c1f1
        ∈ (download_or_skip_both_with_version envAllFail MarkerState.absent base1).1
    ∧ Eff.fetchCall c1f2
        ∉ (download_or_skip_both_with_version envAllFail MarkerState.absent base1).1 := by
  constructor
  · decide
  · decide

theorem probe_pair_shortcircuit_witness :
    Eff.fetchCall c1f1 ∈ [Eff.fetchCall c1f1, Eff.fetchCall c1f2]
      ∨ c1f1 = c1f1 ∨ c1f1 = c1f2 :=
  (probe_pair_shortcircuit envAccept MarkerState.absent base1 (candidatesList 2025 4 313 0)
      [Eff.fetchCall c1f1, Eff.fetchCall c1f2] ⟨2025, 4, 313, 1⟩ c1f1 c1f2 (by rfl)).2
    2025 4 313 0 (by rfl) rfl c1f1 (by decide)

/-! ## Claim C3: idempotence of a re-run -/

/-- C3 (amended): when the stored version resolves, every candidate probe
fails, and the output path derived from the *base* URL already exists, the
run performs only the probing fetches, writes nothing, and returns the
up-to-date status. -/
theorem up_to_date_when_base_csv_exists (env : Env) (mk : MarkerState) (base : String)
    (y q v r : Nat) (pt : List Eff) (p : String)
    (hm : read_local_version mk = Except.ok (some (y, q, v, r)))
    (hp : probe env base (candidatesList y q v r) = (pt, none))
    (hc : combined_csv_path base = some p)
    (he : env.fileExists p = true) :
    download_or_skip_both_with_version env mk base
        = (pt, Except.ok (p, "Up to date — no newer release found."))
    ∧ fetchesOnly pt := by
  have hres : resolveLocal mk base = Except.ok (y, q, v, r) := by
    simp [resolveLocal, hm, resolveIds]
  constructor
  · unfold download_or_skip_both_with_version
    rw [hres]
    simp [hp, hc, he]
  · have hh := probe_fetch_only env base (candidatesList y q v r)
    rw [hp] at hh
    exact hh

theorem up_to_date_when_base_csv_exists_witness :
    download_or_skip_both_with_version envUpToDate
        (MarkerState.content (markerText 2025 4 313 0)) base1
        = ((probe envUpToDate base1 (candidatesList 2025 4 313 0)).1,
           Except.ok ("ccipra-v313r0-f1f2.csv", "Up to date — no newer release found."))
    ∧ fetchesOnly (probe envUpToDate base1 (candidatesList 2025 4 313 0)).1 :=
  up_to_date_when_base_csv_exists envUpToDate
    (MarkerState.content (markerText 2025 4 313 0)) base1 2025 4 313 0
    (probe envUpToDate base1 (candidatesList 2025 4 313 0)).1 "ccipra-v313r0-f1f2.csv"
    (by rfl) (by rfl) (by rfl) rfl

/-- C3 counterexample: a first run from an empty directory accepts candidate
revision 1 and returns the updated status, writing the table under the
updated name and the marker for revision 1; re-invoking from exactly that
on-disk state (marker text of revision 1, only the updated CSV present) with
every candidate probe failing does *not* return the up-to-date status: it
re-fetches the base data files and writes the table again. -/
theorem idempotence_counterexample :
    (download_or_skip_both_with_version envAccept MarkerState.absent base1).2
        = Except.ok ("ccipra-v313r1-f1f2.csv", "Updated to 2025q4 v313r1.")
    ∧ Eff.markerWrite 2025 4 313 1
        ∈ (download_or_skip_both_with_version envAccept MarkerState.absent base1).1
    ∧ Eff.csvWrite "ccipra-v313r1-f1f2.csv" true
        ∈ (download_or_skip_both_with_version envAccept MarkerState.absent base1).1
    ∧ (probe envRerun base1 (candidatesList 2025 4 313 1)).2 = none
    ∧ (download_or_skip_both_with_version envRerun
          (MarkerState.content (markerText 2025 4 313 1)) base1).2
        = Except.ok ("ccipra-v313r0-f1f2.csv", "Downloaded initial version 2025q4 v313r1.")
    ∧ Eff.csvWrite "ccipra-v313r0-f1f2.csv" true
        ∈ (download_or_skip_both_with_version envRerun
            (MarkerState.content (markerText 2025 4 313 1)) base1).1
    ∧ Eff.fetchCall (with_f base1 1)
        ∈ (download_or_skip_both_with_version envRerun
            (MarkerState.content (markerText 2025 4 313 1)) base1).1 :=
  ⟨by rfl, by decide, by decide, by rfl, by rfl, by decide, by decide⟩

/-! ## Claim C8: marker resolution never fails the run? -/

/-- C8 (amended): a marker whose text does not match the marker format is
treated exactly like an absent marker, and the run then resolves its
identifiers from the base URL. -/
theorem marker_malformed_like_absent (env : Env) (base : String) (s : String)
    (hmal : matchMarker (stripChars s.data) = none)
    (v r y q : Nat)
    (hvr : parse_vr base = some (v, r)) (hq : parse_quarter base = some (y, q)) :
    download_or_skip_both_with_version env (MarkerState.content s) base
        = download_or_skip_both_with_version env MarkerState.absent base
    ∧ resolveLocal (MarkerState.content s) base = Except.ok (y, q, v, r) := by
  have h2 : resolveLocal (MarkerState.content s) base
      = resolveLocal MarkerState.absent base := by
    simp only [resolveLocal, read_local_version, hmal]
  constructor
  · unfold download_or_skip_both_with_version
    rw [h2]
  · rw [h2]
    simp [resolveLocal, read_local_version, resolveIds, hvr, hq]

/-- C8 counterexample: an unreadable marker file (its read raises) is not
treated as absent — the run fails at once with the propagated exception. -/
theorem unreadable_marker_fails_run :
    download_or_skip_both_with_version envAllFail MarkerState.unreadable base1
        = ([], Except.error RunErr.ioError) := rfl

theorem marker_malformed_like_absent_witness :
    download_or_skip_both_with_version envAllFail (MarkerState.content "garbage") base1
      = download_or_skip_both_with_version envAllFail MarkerState.absent base1
    ∧ resolveLocal (MarkerState.content "garbage") base1 = Except.ok (2025, 4, 313, 0) :=
  marker_malformed_like_absent envAllFail base1 "garbage" (by rfl) 313 0 2025 4
    (by rfl) (by rfl)

/-! ## Matcher lemmas for claims C4 and C5 -/

theorem takeWhile_append_all {p : Char → Bool} :
    ∀ (xs : List Char), (∀ x ∈ xs, p x = true) → ∀ (ys : List Char),
      (xs ++ ys).takeWhile p = xs ++ ys.takeWhile p := by
  intro xs
  induction xs with
  | nil => intro _ ys; simp
  | cons x xs ih =>
    intro h ys
    have hx : p x = true := h x (List.mem_cons_self _ _)
    simp only [List.cons_append, List.takeWhile_cons, hx, if_true]
    rw [ih (fun a ha => h a (List.mem_cons_of_mem _ ha)) ys]

theorem dropWhile_append_all {p : Char → Bool} :
    ∀ (xs : List Char), (∀ x ∈ xs, p x = true) → ∀ (ys : List Char),
      (xs ++ ys).dropWhile p = ys.dropWhile p := by
  intro xs
  induction xs with
  | nil => intro _ ys; simp
  | cons x xs ih =>
    intro h ys
    have hx : p x = true := h x (List.mem_cons_self _ _)
    simp only [List.cons_append, List.dropWhile_cons, hx, if_true]
    exact ih (fun a ha => h a (List.mem_cons_of_mem _ ha)) ys

theorem takeWhile_append_stop {p : Char → Bool} (xs : List Char) {c : Char}
    (hc : p c = false) (ys : List Char) :
    (xs ++ c :: ys).takeWhile p = xs.takeWhile p := by
  induction xs with
  | nil => simp [List.takeWhile_cons, hc]
  | cons x xs ih =>
    simp only [List.cons_append, List.takeWhile_cons]
    cases hx : p x with
    | true => simp only [if_true]; rw [ih]
    | false => simp

theorem dropWhile_append_stop {p : Char → Bool} (xs : List Char) {c : Char}
    (hc : p c = false) (ys : List Char) :
    (xs ++ c :: ys).dropWhile p = xs.dropWhile p ++ c :: ys := by
  induction xs with
  | nil => simp [List.dropWhile_cons, hc]
  | cons x xs ih =>
    simp only [List.cons_append, List.dropWhile_cons]
    cases hx : p x with
    | true => simp only [if_true]; rw [ih]
    | false => simp

theorem natChars_ne_nil (n : Nat) : natChars n ≠ [] := by
  rw [natChars_eq_WF, natCharsWF]
  by_cases h : n < 10 <;> simp [h]

theorem pad3_ne_nil (n : Nat) : pad3 n ≠ [] := by
  intro h
  have := natChars_ne_nil n
  rw [pad3] at h
  rcases List.append_eq_nil.mp h with ⟨-, h2⟩
  exact this h2

/-- Soundness of the body matcher: shape of the token and decomposition of
the input. -/
theorem tryVRBody_sound (ld : Option Char) :
    ∀ (s : List Char) (tok : VRTok) (rest : List Char),
      tryVRBody ld s = some (tok, rest) →
      tok.lead = ld
      ∧ (tok.vchr = 'v' ∨ tok.vchr = 'V')
      ∧ tok.vds.length = 3 ∧ (∀ c ∈ tok.vds, c.isDigit = true)
      ∧ (tok.rchr = 'r' ∨ tok.rchr = 'R')
      ∧ tok.rds ≠ [] ∧ (∀ c ∈ tok.rds, c.isDigit = true)
      ∧ (tok.trail = none → rest = [])
      ∧ (∀ t, tok.trail = some t → t = '-' ∨ t = '_')
      ∧ s = tok.vchr :: (tok.vds ++ tok.rchr :: (tok.rds ++ tok.trail.toList ++ rest)) := by
  intro s tok rest h
  rcases s with _ | ⟨vc, s⟩
  · exact absurd h (by simp [tryVRBody])
  rcases s with _ | ⟨d1, s⟩
  · exact absurd h (by simp [tryVRBody])
  rcases s with _ | ⟨d2, s⟩
  · exact absurd h (by simp [tryVRBody])
  rcases s with _ | ⟨d3, s⟩
  · exact absurd h (by simp [tryVRBody])
  rcases s with _ | ⟨rc, rest2⟩
  · exact absurd h (by simp [tryVRBody])
  simp only [tryVRBody] at h
  by_cases hcond : (vc = 'v' ∨ vc = 'V') ∧ d1.isDigit = true ∧ d2.isDigit = true
      ∧ d3.isDigit = true ∧ (rc = 'r' ∨ rc = 'R')
  · rw [if_pos hcond] at h
    by_cases hds : rest2.takeWhile Char.isDigit = []
    · rw [if_pos hds] at h
      exact absurd h (by simp)
    · rw [if_neg hds] at h
      have hsplit : List.takeWhile Char.isDigit rest2 ++ List.dropWhile Char.isDigit rest2
          = rest2 := List.takeWhile_append_dropWhile Char.isDigit rest2
      have hdigs : ∀ c ∈ rest2.takeWhile Char.isDigit, c.isDigit = true :=
        fun c hc => List.mem_takeWhile_imp hc
      cases hdw : rest2.dropWhile Char.isDigit with
      | nil =>
        simp only [hdw] at h
        injection h with h1
        injection h1 with htok hrest
        subst htok
        subst hrest
        rw [hdw, List.append_nil] at hsplit
        refine ⟨rfl, hcond.1, rfl, ?_, hcond.2.2.2.2, hds, hdigs, fun _ => rfl,
          fun t ht => by simp at ht, ?_⟩
        · intro c hc
          simp only [List.mem_cons, List.not_mem_nil, or_false] at hc
          rcases hc with rfl | rfl | rfl
          exacts [hcond.2.1, hcond.2.2.1, hcond.2.2.2.1]
        · simp [hsplit]
      | cons t rest3 =>
        simp only [hdw] at h
        by_cases htd : t = '-' ∨ t = '_'
        · rw [if_pos htd] at h
          injection h with h1
          injection h1 with htok hrest
          subst htok
          subst hrest
          rw [hdw] at hsplit
          refine ⟨rfl, hcond.1, rfl, ?_, hcond.2.2.2.2, hds, hdigs,
            fun hnone => by simp at hnone, fun t' ht' => by
              simp only [Option.some.injEq] at ht'
              rw [← ht']
              exact htd, ?_⟩
          · intro c hc
            simp only [List.mem_cons, List.not_mem_nil, or_false] at hc
            rcases hc with rfl | rfl | rfl
            exacts [hcond.2.1, hcond.2.2.1, hcond.2.2.2.1]
          · conv_lhs => rw [← hsplit]
            simp
        · rw [if_neg htd] at h
          exact absurd h (by simp)
  · rw [if_neg hcond] at h
    exact absurd h (by simp)

/-- The full regex-match characters of a token in terms of the body split. -/
theorem VRTok_chars_eq (tok : VRTok) :
    VRTok.chars tok = tok.lead.toList
      ++ tok.vchr :: (tok.vds ++ tok.rchr :: (tok.rds ++ tok.trail.toList)) := rfl

/-- Soundness of one anchored attempt. -/
theorem tryVR_sound (st : Bool) (s : List Char) (tok : VRTok) (rest : List Char)
    (h : tryVR st s = some (tok, rest)) :
    (tok.lead = none → st = true)
    ∧ (∀ c, tok.lead = some c → c = '-' ∨ c = '_')
    ∧ (tok.vchr = 'v' ∨ tok.vchr = 'V')
    ∧ tok.vds.length = 3 ∧ (∀ c ∈ tok.vds, c.isDigit = true)
    ∧ (tok.rchr = 'r' ∨ tok.rchr = 'R')
    ∧ tok.rds ≠ [] ∧ (∀ c ∈ tok.rds, c.isDigit = true)
    ∧ (tok.trail = none → rest = [])
    ∧ (∀ t, tok.trail = some t → t = '-' ∨ t = '_')
    ∧ s = VRTok.chars tok ++ rest := by
  simp only [tryVR] at h
  cases hb : (if st then tryVRBody none s else none) with
  | some res =>
    simp only [hb] at h
    injection h with h1
    subst h1
    have hst : st = true := by
      by_contra hst
      simp only [Bool.not_eq_true] at hst
      rw [hst] at hb
      exact absurd hb (by simp)
    rw [hst, if_pos rfl] at hb
    obtain ⟨hld, hv, hl3, hdv, hr, hne, hdr, htn, hts, hs⟩ := tryVRBody_sound none s tok rest hb
    refine ⟨fun _ => hst, ?_, hv, hl3, hdv, hr, hne, hdr, htn, hts, ?_⟩
    · intro c hc
      rw [hld] at hc
      exact absurd hc (by simp)
    · rw [VRTok_chars_eq, hld]
      simpa using hs
  | none =>
    simp only [hb] at h
    rcases s with _ | ⟨c, s'⟩
    · exact absurd h (by simp)
    replace h : (if c = '-' ∨ c = '_' then tryVRBody (some c) s' else none)
        = some (tok, rest) := h
    by_cases hc : c = '-' ∨ c = '_'
    · rw [if_pos hc] at h
      obtain ⟨hld, hv, hl3, hdv, hr, hne, hdr, htn, hts, hs⟩ :=
        tryVRBody_sound (some c) s' tok rest h
      refine ⟨fun hn => absurd (hn ▸ hld).symm (by simp), ?_, hv, hl3, hdv, hr, hne, hdr,
        htn, hts, ?_⟩
      · intro c' hc'
        rw [hld] at hc'
        injection hc' with hcc
        rw [← hcc]
        exact hc
      · rw [VRTok_chars_eq, hld, hs]
        simp
    · rw [if_neg hc] at h
      exact absurd h (by simp)

/-- Soundness of the scan: the string splits at the match. -/
theorem findVRAux_sound :
    ∀ (s : List Char) (st : Bool) (pre : List Char) (tok : VRTok) (rest : List Char),
      findVRAux s st = some (pre, tok, rest) →
      s = pre ++ VRTok.chars tok ++ rest
      ∧ (tok.lead = none → pre = [] ∧ st = true)
      ∧ (∀ c, tok.lead = some c → c = '-' ∨ c = '_')
      ∧ (tok.vchr = 'v' ∨ tok.vchr = 'V')
      ∧ tok.vds.length = 3 ∧ (∀ c ∈ tok.vds, c.isDigit = true)
      ∧ (tok.rchr = 'r' ∨ tok.rchr = 'R')
      ∧ tok.rds ≠ [] ∧ (∀ c ∈ tok.rds, c.isDigit = true)
      ∧ (tok.trail = none → rest = [])
      ∧ (∀ t, tok.trail = some t → t = '-' ∨ t = '_') := by
  intro s
  induction s with
  | nil =>
    intro st pre tok rest h
    exact absurd h (by simp [findVRAux])
  | cons c cs ih =>
    intro st pre tok rest h
    simp only [findVRAux] at h
    cases htry : tryVR st (c :: cs) with
    | some res =>
      obtain ⟨tok0, rest0⟩ := res
      simp only [htry] at h
      simp only [Option.some.injEq, Prod.mk.injEq] at h
      obtain ⟨hpre, htok, hrest⟩ := h
      subst hpre
      subst htok
      subst hrest
      obtain ⟨h1', h2', h3', h4', h5', h6', h7', h8', h9', h10', h11'⟩ :=
        tryVR_sound st (c :: cs) tok0 rest0 htry
      exact ⟨by simpa using h11', fun hn => ⟨rfl, h1' hn⟩, h2', h3', h4', h5', h6', h7',
        h8', h9', h10'⟩
    | none =>
      simp only [htry] at h
      cases hrec : findVRAux cs false with
      | none =>
        rw [hrec] at h
        exact absurd h (by simp)
      | some res =>
        obtain ⟨pre0, tok0, rest0⟩ := res
        simp only [hrec, Option.some.injEq, Prod.mk.injEq] at h
        obtain ⟨hpre, htok, hrest⟩ := h
        subst htok
        subst hrest
        obtain ⟨ha, hb', hc', hd', he', hf', hg', hh', hi', hj', hk'⟩ :=
          ih false pre0 tok0 rest0 hrec
        refine ⟨?_, ?_, hc', hd', he', hf', hg', hh', hi', hj', hk'⟩
        · rw [← hpre]
          simp [ha]
        · intro hn
          obtain ⟨-, hfalse⟩ := hb' hn
          exact absurd hfalse (by simp)

/-! Transfer of failure: an attempt that starts strictly before a delimiter
character can never look past that delimiter, so whether it fails does not
depend on what follows the delimiter. -/

theorem tryVRBody_not_v (ld : Option Char) (c : Char) (hc : ¬(c = 'v' ∨ c = 'V')) :
    ∀ (t : List Char), tryVRBody ld (c :: t) = none := by
  intro t
  rcases t with _ | ⟨a, t⟩
  · rfl
  rcases t with _ | ⟨b, t⟩
  · rfl
  rcases t with _ | ⟨d, t⟩
  · rfl
  rcases t with _ | ⟨e, t⟩
  · rfl
  simp only [tryVRBody]
  rw [if_neg (fun hcond => hc hcond.1)]

theorem tryVRBody_d1_bad (ld : Option Char) (x0 c : Char) (hc : c.isDigit = false) :
    ∀ (t : List Char), tryVRBody ld (x0 :: c :: t) = none := by
  intro t
  rcases t with _ | ⟨b, t⟩
  · rfl
  rcases t with _ | ⟨d, t⟩
  · rfl
  rcases t with _ | ⟨e, t⟩
  · rfl
  simp only [tryVRBody]
  rw [if_neg (fun hcond => absurd hcond.2.1 (by simp [hc]))]

theorem tryVRBody_d2_bad (ld : Option Char) (x0 x1 c : Char) (hc : c.isDigit = false) :
    ∀ (t : List Char), tryVRBody ld (x0 :: x1 :: c :: t) = none := by
  intro t
  rcases t with _ | ⟨d, t⟩
  · rfl
  rcases t with _ | ⟨e, t⟩
  · rfl
  simp only [tryVRBody]
  rw [if_neg (fun hcond => absurd hcond.2.2.1 (by simp [hc]))]

theorem tryVRBody_d3_bad (ld : Option Char) (x0 x1 x2 c : Char) (hc : c.isDigit = false) :
    ∀ (t : List Char), tryVRBody ld (x0 :: x1 :: x2 :: c :: t) = none := by
  intro t
  rcases t with _ | ⟨e, t⟩
  · rfl
  simp only [tryVRBody]
  rw [if_neg (fun hcond => absurd hcond.2.2.2.1 (by simp [hc]))]

theorem tryVRBody_rc_bad (ld : Option Char) (x0 x1 x2 x3 c : Char)
    (hc : ¬(c = 'r' ∨ c = 'R')) :
    ∀ (t : List Char), tryVRBody ld (x0 :: x1 :: x2 :: x3 :: c :: t) = none := by
  intro t
  simp only [tryVRBody]
  rw [if_neg (fun hcond => hc hcond.2.2.2.2)]

theorem tryVRBody_indep (ld : Option Char) (a : List Char) (c : Char)
    (hdigit : c.isDigit = false) (hnv : ¬(c = 'v' ∨ c = 'V')) (hnr : ¬(c = 'r' ∨ c = 'R'))
    (hdel : c = '-' ∨ c = '_') (r1 r2 : List Char) :
    (tryVRBody ld (a ++ c :: r1) = none) ↔ (tryVRBody ld (a ++ c :: r2) = none) := by
  rcases a with _ | ⟨x0, a⟩
  · simp [tryVRBody_not_v ld c hnv]
  rcases a with _ | ⟨x1, a⟩
  · simp [tryVRBody_d1_bad ld x0 c hdigit]
  rcases a with _ | ⟨x2, a⟩
  · simp [tryVRBody_d2_bad ld x0 x1 c hdigit]
  rcases a with _ | ⟨x3, a⟩
  · simp [tryVRBody_d3_bad ld x0 x1 x2 c hdigit]
  rcases a with _ | ⟨x4, a⟩
  · simp [tryVRBody_rc_bad ld x0 x1 x2 x3 c hnr]
  simp only [List.cons_append, tryVRBody]
  by_cases hcond : (x0 = 'v' ∨ x0 = 'V') ∧ x1.isDigit = true ∧ x2.isDigit = true
      ∧ x3.isDigit = true ∧ (x4 = 'r' ∨ x4 = 'R')
  · rw [if_pos hcond, if_pos hcond]
    have hds1 : (a ++ c :: r1).takeWhile Char.isDigit = a.takeWhile Char.isDigit :=
      takeWhile_append_stop a hdigit r1
    have hds2 : (a ++ c :: r2).takeWhile Char.isDigit = a.takeWhile Char.isDigit :=
      takeWhile_append_stop a hdigit r2
    have hdw1 : (a ++ c :: r1).dropWhile Char.isDigit = a.dropWhile Char.isDigit ++ c :: r1 :=
      dropWhile_append_stop a hdigit r1
    have hdw2 : (a ++ c :: r2).dropWhile Char.isDigit = a.dropWhile Char.isDigit ++ c :: r2 :=
      dropWhile_append_stop a hdigit r2
    simp only [hds1, hds2, hdw1, hdw2]
    by_cases hds : a.takeWhile Char.isDigit = []
    · simp [hds]
    · simp only [if_neg hds]
      cases hdwa : a.dropWhile Char.isDigit with
      | nil =>
        simp only [List.nil_append]
        simp [hdel]
      | cons t tail =>
        simp only [List.cons_append]
        by_cases htd : t = '-' ∨ t = '_'
        · simp [htd]
        · simp [htd]
  · rw [if_neg hcond, if_neg hcond]

theorem tryVR_indep (st : Bool) (a : List Char) (ha : a ≠ []) (c : Char)
    (hdel : c = '-' ∨ c = '_') (r1 r2 : List Char) :
    (tryVR st (a ++ c :: r1) = none) ↔ (tryVR st (a ++ c :: r2) = none) := by
  have hdigit : c.isDigit = false := by rcases hdel with rfl | rfl <;> rfl
  have hnv : ¬(c = 'v' ∨ c = 'V') := by rcases hdel with rfl | rfl <;> decide
  have hnr : ¬(c = 'r' ∨ c = 'R') := by rcases hdel with rfl | rfl <;> decide
  rcases a with _ | ⟨x, aa⟩
  · exact absurd rfl ha
  have hB1 := tryVRBody_indep none (x :: aa) c hdigit hnv hnr hdel r1 r2
  have hB2 := tryVRBody_indep (some x) aa c hdigit hnv hnr hdel r1 r2
  simp only [List.cons_append] at hB1 ⊢
  simp only [tryVR]
  cases st with
  | false =>
    simp only [Bool.false_eq_true, if_false]
    by_cases hx : x = '-' ∨ x = '_'
    · simpa [hx] using hB2
    · simp [hx]
  | true =>
    simp only [if_true]
    cases hb1 : tryVRBody none (x :: (aa ++ c :: r1)) with
    | some res1 =>
      have hb2 : tryVRBody none (x :: (aa ++ c :: r2)) ≠ none := by
        intro hnone
        rw [hB1.mpr hnone] at hb1
        exact Option.noConfusion hb1
      cases hb2' : tryVRBody none (x :: (aa ++ c :: r2)) with
      | some res2 => simp
      | none => exact absurd hb2' hb2
    | none =>
      have hb2 : tryVRBody none (x :: (aa ++ c :: r2)) = none := hB1.mp hb1
      simp only [hb2]
      by_cases hx : x = '-' ∨ x = '_'
      · simpa [hx] using hB2
      · simp [hx]

theorem takeWhile_all_eq {p : Char → Bool} {l : List Char} (h : ∀ x ∈ l, p x = true) :
    l.takeWhile p = l := by
  have := takeWhile_append_all l h []
  simpa using this

theorem dropWhile_all_eq {p : Char → Bool} {l : List Char} (h : ∀ x ∈ l, p x = true) :
    l.dropWhile p = [] := by
  have := dropWhile_append_all l h []
  simpa using this

theorem findVRAux_of_tryVR {s : List Char} {st : Bool} {tok : VRTok} {rest : List Char}
    (hs : s ≠ []) (h : tryVR st s = some (tok, rest)) :
    findVRAux s st = some ([], tok, rest) := by
  rcases s with _ | ⟨c, cs⟩
  · exact absurd rfl hs
  · simp only [findVRAux, h]

/-- The rewritten token matches the body pattern at its own position. -/
theorem tryVRBody_new (v r : Nat) (hv : v < 1000) (post : List Char) (ld tr : Option Char)
    (htr : tr = some '-' ∨ tr = none) (htrp : tr = none → post = []) :
    tryVRBody ld (('v' :: (pad3 v ++ 'r' :: (natChars r ++ tr.toList))) ++ post)
      = some (⟨ld, 'v', pad3 v, 'r', natChars r, tr⟩, post) := by
  obtain ⟨a, b, c, habc⟩ := List.length_eq_three.mp (pad3_length hv)
  have hdigs : ∀ x ∈ pad3 v, x.isDigit = true := pad3_all_digits v
  rw [habc] at hdigs ⊢
  have hda : a.isDigit = true := hdigs a (by simp)
  have hdb : b.isDigit = true := hdigs b (by simp)
  have hdc : c.isDigit = true := hdigs c (by simp)
  have hrdig : ∀ x ∈ natChars r, Char.isDigit x = true := natChars_all_digits r
  rcases htr with rfl | rfl
  · have hshape : ('v' :: ([a, b, c] ++ 'r' :: (natChars r ++ (some '-').toList))) ++ post
        = 'v' :: a :: b :: c :: 'r' :: (natChars r ++ '-' :: post) := by
      simp
    rw [hshape]
    simp only [tryVRBody]
    rw [if_pos ⟨Or.inl trivial, hda, hdb, hdc, Or.inl trivial⟩]
    have ht1 : (natChars r ++ '-' :: post).takeWhile Char.isDigit = natChars r := by
      rw [takeWhile_append_stop _ (by rfl) post]
      exact takeWhile_all_eq hrdig
    have ht2 : (natChars r ++ '-' :: post).dropWhile Char.isDigit = '-' :: post := by
      rw [dropWhile_append_stop _ (by rfl) post, dropWhile_all_eq hrdig]
      simp
    simp only [ht1, ht2]
    rw [if_neg (natChars_ne_nil r), if_pos (Or.inl trivial)]
  · have hpost : post = [] := htrp rfl
    subst hpost
    have hshape : ('v' :: ([a, b, c] ++ 'r' :: (natChars r ++ (none : Option Char).toList)))
          ++ ([] : List Char)
        = 'v' :: a :: b :: c :: 'r' :: natChars r := by
      simp
    rw [hshape]
    simp only [tryVRBody]
    rw [if_pos ⟨Or.inl trivial, hda, hdb, hdc, Or.inl trivial⟩]
    have ht1 : (natChars r).takeWhile Char.isDigit = natChars r := takeWhile_all_eq hrdig
    have ht2 : (natChars r).dropWhile Char.isDigit = [] := dropWhile_all_eq hrdig
    simp only [ht1, ht2]
    rw [if_neg (natChars_ne_nil r)]

/-- The rewritten token matches the full anchored pattern at its position. -/
theorem tryVR_new (st : Bool) (v r : Nat) (hv : v < 1000) (post : List Char)
    (ld tr : Option Char)
    (hldst : ld = none → st = true)
    (hld : ld = some '-' ∨ ld = none)
    (htr : tr = some '-' ∨ tr = none) (htrp : tr = none → post = []) :
    tryVR st (VRTok.chars ⟨ld, 'v', pad3 v, 'r', natChars r, tr⟩ ++ post)
      = some (⟨ld, 'v', pad3 v, 'r', natChars r, tr⟩, post) := by
  have hbody := tryVRBody_new v r hv post ld tr htr htrp
  rcases hld with rfl | rfl
  · have hbody' := tryVRBody_new v r hv post (some '-') tr htr htrp
    have hshape : VRTok.chars ⟨some '-', 'v', pad3 v, 'r', natChars r, tr⟩ ++ post
        = '-' :: (('v' :: (pad3 v ++ 'r' :: (natChars r ++ tr.toList))) ++ post) := by
      simp [VRTok.chars]
    rw [hshape]
    have hno : tryVRBody none ('-' :: (('v' :: (pad3 v ++ 'r' :: (natChars r ++ tr.toList)))
        ++ post)) = none := tryVRBody_not_v none '-' (by decide) _
    simp only [tryVR]
    cases st with
    | false =>
      simp only [Bool.false_eq_true, if_false]
      rw [if_pos (Or.inl trivial)]
      exact hbody'
    | true =>
      simp only [if_true, hno]
      rw [if_pos (Or.inl trivial)]
      exact hbody'
  · have hst : st = true := hldst rfl
    subst hst
    have hshape : VRTok.chars ⟨none, 'v', pad3 v, 'r', natChars r, tr⟩ ++ post
        = ('v' :: (pad3 v ++ 'r' :: (natChars r ++ tr.toList))) ++ post := by
      simp [VRTok.chars]
    rw [hshape]
    simp only [tryVR, if_true, hbody]

/-- Stability: rewriting the matched token in place leaves the leftmost
match at the same position, with the rewritten token matched. -/
theorem findVRAux_stable :
    ∀ (pre : List Char) (st : Bool) (tok : VRTok) (post : List Char) (v r : Nat),
      findVRAux (pre ++ VRTok.chars tok ++ post) st = some (pre, tok, post) →
      (tok.lead = some '-' ∨ tok.lead = none) →
      (tok.trail = some '-' ∨ tok.trail = none) →
      v < 1000 →
      findVRAux (pre ++ VRTok.chars ⟨tok.lead, 'v', pad3 v, 'r', natChars r, tok.trail⟩
          ++ post) st
        = some (pre, ⟨tok.lead, 'v', pad3 v, 'r', natChars r, tok.trail⟩, post) := by
  intro pre
  induction pre with
  | nil =>
    intro st tok post v r h hl ht hv
    obtain ⟨-, hldst, -⟩ := findVRAux_sound _ st [] tok post h
    have htn : tok.trail = none → post = [] :=
      (findVRAux_sound _ st [] tok post h).2.2.2.2.2.2.2.2.2.1
    apply findVRAux_of_tryVR
    · intro hnil
      rcases List.append_eq_nil.mp hnil with ⟨hchars, -⟩
      simp [VRTok.chars] at hchars
    · exact tryVR_new st v r hv post tok.lead tok.trail
        (fun hn => (hldst hn).2) hl ht htn
  | cons c0 pre' ih =>
    intro st tok post v r h hl ht hv
    have horig := h
    have hlead : tok.lead = some '-' := by
      rcases hl with hl | hl
      · exact hl
      · obtain ⟨-, hb', -⟩ := findVRAux_sound _ st (c0 :: pre') tok post horig
        obtain ⟨hfalse, -⟩ := hb' hl
        exact absurd hfalse (by simp)
    have hchars_old : VRTok.chars tok
        = '-' :: (tok.vchr :: (tok.vds ++ tok.rchr :: (tok.rds ++ tok.trail.toList))) := by
      rw [VRTok_chars_eq, hlead]
      rfl
    have hchars_new : VRTok.chars ⟨tok.lead, 'v', pad3 v, 'r', natChars r, tok.trail⟩
        = '-' :: ('v' :: (pad3 v ++ 'r' :: (natChars r ++ tok.trail.toList))) := by
      rw [VRTok_chars_eq]
      rw [show (⟨tok.lead, 'v', pad3 v, 'r', natChars r, tok.trail⟩ : VRTok).lead
          = tok.lead from rfl, hlead]
      rfl
    simp only [List.cons_append, findVRAux, List.append_eq] at h ⊢
    cases htry : tryVR st (c0 :: (pre' ++ VRTok.chars tok ++ post)) with
    | some res =>
      obtain ⟨tok0, rest0⟩ := res
      simp only [htry, Option.some.injEq, Prod.mk.injEq] at h
      exact absurd h.1 (by simp)
    | none =>
      simp only [htry] at h
      cases hrec : findVRAux (pre' ++ VRTok.chars tok ++ post) false with
      | none => rw [hrec] at h; exact absurd h (by simp)
      | some res =>
        obtain ⟨pre0, tok0, rest0⟩ := res
        simp only [hrec, Option.some.injEq, Prod.mk.injEq] at h
        obtain ⟨hpre, htok, hrest⟩ := h
        have hpre' : pre0 = pre' := by
          injection hpre with h1 h2
        rw [hpre', htok, hrest] at hrec
        have hrec' := ih false tok post v r hrec hl ht hv
        have hshape_old : c0 :: (pre' ++ VRTok.chars tok ++ post)
            = (c0 :: pre') ++ '-' :: ((tok.vchr :: (tok.vds ++ tok.rchr ::
                (tok.rds ++ tok.trail.toList))) ++ post) := by
          rw [hchars_old]
          simp
        have hshape_new : c0 :: (pre' ++ VRTok.chars
              ⟨tok.lead, 'v', pad3 v, 'r', natChars r, tok.trail⟩ ++ post)
            = (c0 :: pre') ++ '-' :: (('v' :: (pad3 v ++ 'r' ::
                (natChars r ++ tok.trail.toList))) ++ post) := by
          rw [hchars_new]
          simp
        have htry_old : tryVR st ((c0 :: pre') ++ '-' :: ((tok.vchr :: (tok.vds
            ++ tok.rchr :: (tok.rds ++ tok.trail.toList))) ++ post)) = none := by
          rw [← hshape_old]
          exact htry
        have htry_new : tryVR st ((c0 :: pre') ++ '-' :: (('v' :: (pad3 v ++ 'r' ::
            (natChars r ++ tok.trail.toList))) ++ post)) = none :=
          (tryVR_indep st (c0 :: pre') (by simp) '-' (Or.inl rfl) _ _).mp htry_old
        have htry_new' : tryVR st (c0 :: (pre' ++ VRTok.chars
            ⟨tok.lead, 'v', pad3 v, 'r', natChars r, tok.trail⟩ ++ post)) = none := by
          rw [hshape_new]
          exact htry_new
        simp only [htry_new', hrec']

/-! Soundness and stability of the quarter matcher, mirroring the
version-token development, and of the `-f` matcher. -/

theorem qdigit_chars (q : Nat) (h1 : 1 ≤ q) (h2 : q ≤ 4) :
    natChars q = [Nat.digitChar q] := by
  interval_cases q <;> rfl

theorem natChars_year (y : Nat) (h1 : 2000 ≤ y) (h2 : y ≤ 2099) :
    natChars y = ['2', '0', Nat.digitChar (y / 10 % 10), Nat.digitChar (y % 10)] := by
  rw [natChars_eq_WF]
  rw [natCharsWF]
  rw [if_neg (by omega : ¬ y < 10)]
  rw [natCharsWF]
  rw [if_neg (by omega : ¬ y / 10 < 10)]
  rw [show y / 10 / 10 = 20 by omega]
  rw [← natChars_eq_WF]
  rw [show natChars 20 = ['2', '0'] from rfl]
  rfl

theorem isDigit_not_qQ {c : Char} (h : c.isDigit = true) : ¬(c = 'q' ∨ c = 'Q') := by
  rintro (rfl | rfl) <;> exact absurd h (by decide)

theorem tryQ_sound (s : List Char) (tok : QTok) (rest : List Char)
    (h : tryQ s = some (tok, rest)) :
    s = QTok.chars tok ++ rest
    ∧ (∃ c d, tok.yds = ['2', '0', c, d] ∧ c.isDigit = true ∧ d.isDigit = true)
    ∧ (tok.qchr = 'q' ∨ tok.qchr = 'Q')
    ∧ '1' ≤ tok.qd ∧ tok.qd ≤ '4' := by
  rcases s with _ | ⟨a, s⟩
  · exact absurd h (by simp [tryQ])
  rcases s with _ | ⟨b, s⟩
  · exact absurd h (by simp [tryQ])
  rcases s with _ | ⟨c, s⟩
  · exact absurd h (by simp [tryQ])
  rcases s with _ | ⟨d, s⟩
  · exact absurd h (by simp [tryQ])
  rcases s with _ | ⟨e, s⟩
  · exact absurd h (by simp [tryQ])
  rcases s with _ | ⟨f, rest2⟩
  · exact absurd h (by simp [tryQ])
  simp only [tryQ] at h
  by_cases hcond : a = '2' ∧ b = '0' ∧ c.isDigit = true ∧ d.isDigit = true
      ∧ (e = 'q' ∨ e = 'Q') ∧ ('1' ≤ f ∧ f ≤ '4')
  · rw [if_pos hcond] at h
    injection h with h1
    injection h1 with htok hrest
    subst htok
    subst hrest
    obtain ⟨ha, hb, hc, hd, he, hf⟩ := hcond
    subst ha
    subst hb
    exact ⟨rfl, ⟨c, d, rfl, hc, hd⟩, he, hf.1, hf.2⟩
  · rw [if_neg hcond] at h
    exact absurd h (by simp)

theorem findQAux_sound :
    ∀ (s pre : List Char) (tok : QTok) (rest : List Char),
      findQAux s = some (pre, tok, rest) →
      s = pre ++ QTok.chars tok ++ rest
      ∧ (∃ c d, tok.yds = ['2', '0', c, d] ∧ c.isDigit = true ∧ d.isDigit = true)
      ∧ (tok.qchr = 'q' ∨ tok.qchr = 'Q')
      ∧ '1' ≤ tok.qd ∧ tok.qd ≤ '4' := by
  intro s
  induction s with
  | nil =>
    intro pre tok rest h
    exact absurd h (by simp [findQAux])
  | cons c cs ih =>
    intro pre tok rest h
    simp only [findQAux] at h
    cases htry : tryQ (c :: cs) with
    | some res =>
      obtain ⟨tok0, rest0⟩ := res
      simp only [htry, Option.some.injEq, Prod.mk.injEq] at h
      obtain ⟨hpre, htok, hrest⟩ := h
      subst htok
      subst hrest
      obtain ⟨h1, h2, h3, h4, h5⟩ := tryQ_sound (c :: cs) tok0 rest0 htry
      refine ⟨?_, h2, h3, h4, h5⟩
      rw [← hpre]
      simpa using h1
    | none =>
      simp only [htry] at h
      cases hrec : findQAux cs with
      | none => rw [hrec] at h; exact absurd h (by simp)
      | some res =>
        obtain ⟨pre0, tok0, rest0⟩ := res
        simp only [hrec, Option.some.injEq, Prod.mk.injEq] at h
        obtain ⟨hpre, htok, hrest⟩ := h
        subst htok
        subst hrest
        obtain ⟨h1, h2, h3, h4, h5⟩ := ih pre0 tok0 rest0 hrec
        refine ⟨?_, h2, h3, h4, h5⟩
        rw [← hpre]
        simp [h1]

theorem findQAux_of_tryQ {s : List Char} {tok : QTok} {rest : List Char}
    (hs : s ≠ []) (h : tryQ s = some (tok, rest)) :
    findQAux s = some ([], tok, rest) := by
  rcases s with _ | ⟨c, cs⟩
  · exact absurd rfl hs
  · simp only [findQAux, h]

theorem tryQ_new (y q : Nat) (hy1 : 2000 ≤ y) (hy2 : y ≤ 2099)
    (hq1 : 1 ≤ q) (hq2 : q ≤ 4) (post : List Char) :
    tryQ ((natChars y ++ 'q' :: natChars q) ++ post)
      = some (⟨natChars y, 'q', Nat.digitChar q⟩, post) := by
  have hc : (Nat.digitChar (y / 10 % 10)).isDigit = true :=
    digitChar_isDigit (Nat.mod_lt _ (by omega))
  have hd : (Nat.digitChar (y % 10)).isDigit = true :=
    digitChar_isDigit (Nat.mod_lt _ (by omega))
  have hf : '1' ≤ Nat.digitChar q ∧ Nat.digitChar q ≤ '4' := by
    interval_cases q <;> exact ⟨by decide, by decide⟩
  rw [qdigit_chars q hq1 hq2, natChars_year y hy1 hy2]
  show tryQ ('2' :: '0' :: Nat.digitChar (y / 10 % 10) :: Nat.digitChar (y % 10)
      :: 'q' :: Nat.digitChar q :: post) = _
  simp only [tryQ]
  rw [if_pos ⟨trivial, trivial, hc, hd, Or.inl trivial, hf⟩]

theorem tryQ_indep (a : List Char) (ha : a ≠ [])
    (c d e f c' d' e' f' : Char)
    (hc : c.isDigit = true) (hd : d.isDigit = true)
    (hc' : c'.isDigit = true) (hd' : d'.isDigit = true)
    (r1 r2 : List Char) :
    (tryQ (a ++ '2' :: '0' :: c :: d :: e :: f :: r1) = none)
      ↔ (tryQ (a ++ '2' :: '0' :: c' :: d' :: e' :: f' :: r2) = none) := by
  rcases a with _ | ⟨x0, a⟩
  · exact absurd rfl ha
  rcases a with _ | ⟨x1, a⟩
  · constructor <;> intro _ <;>
      (simp only [List.cons_append, List.nil_append, tryQ];
       rw [if_neg (fun hcond => absurd hcond.2.1 (by decide))])
  rcases a with _ | ⟨x2, a⟩
  · constructor
    · intro _
      simp only [List.cons_append, List.nil_append, tryQ]
      rw [if_neg (fun hcond => isDigit_not_qQ hc' hcond.2.2.2.2.1)]
    · intro _
      simp only [List.cons_append, List.nil_append, tryQ]
      rw [if_neg (fun hcond => isDigit_not_qQ hc hcond.2.2.2.2.1)]
  rcases a with _ | ⟨x3, a⟩
  · constructor <;> intro _ <;>
      (simp only [List.cons_append, List.nil_append, tryQ];
       rw [if_neg (fun hcond => absurd hcond.2.2.2.2.1 (by decide))])
  rcases a with _ | ⟨x4, a⟩
  · constructor <;> intro _ <;>
      (simp only [List.cons_append, List.nil_append, tryQ];
       rw [if_neg (fun hcond => absurd hcond.2.2.2.2.1 (by decide))])
  rcases a with _ | ⟨x5, a⟩
  · simp only [List.cons_append, List.nil_append, tryQ]
    by_cases hcond : x0 = '2' ∧ x1 = '0' ∧ x2.isDigit = true ∧ x3.isDigit = true
        ∧ (x4 = 'q' ∨ x4 = 'Q') ∧ ('1' ≤ ('2' : Char) ∧ ('2' : Char) ≤ '4')
    · rw [if_pos hcond, if_pos hcond]
      simp
    · rw [if_neg hcond, if_neg hcond]
  · simp only [List.cons_append, tryQ]
    by_cases hcond : x0 = '2' ∧ x1 = '0' ∧ x2.isDigit = true ∧ x3.isDigit = true
        ∧ (x4 = 'q' ∨ x4 = 'Q') ∧ ('1' ≤ x5 ∧ x5 ≤ '4')
    · rw [if_pos hcond, if_pos hcond]
      simp
    · rw [if_neg hcond, if_neg hcond]

theorem findQAux_stable :
    ∀ (pre : List Char) (tok : QTok) (post : List Char) (y q : Nat),
      findQAux (pre ++ QTok.chars tok ++ post) = some (pre, tok, post) →
      2000 ≤ y → y ≤ 2099 → 1 ≤ q → q ≤ 4 →
      findQAux (pre ++ (natChars y ++ 'q' :: natChars q) ++ post)
        = some (pre, ⟨natChars y, 'q', Nat.digitChar q⟩, post) := by
  intro pre
  induction pre with
  | nil =>
    intro tok post y q h hy1 hy2 hq1 hq2
    apply findQAux_of_tryQ
    · intro hnil
      simp only [List.nil_append, List.append_eq_nil] at hnil
      exact natChars_ne_nil y hnil.1.1
    · exact tryQ_new y q hy1 hy2 hq1 hq2 post
  | cons c0 pre' ih =>
    intro tok post y q h hy1 hy2 hq1 hq2
    obtain ⟨hsplit, ⟨cc, dd, hydsEq, hcc, hdd⟩, hqchr, hqd1, hqd2⟩ :=
      findQAux_sound _ (c0 :: pre') tok post h
    have hchars_old : QTok.chars tok
        = '2' :: '0' :: cc :: dd :: tok.qchr :: [tok.qd] := by
      show tok.yds ++ tok.qchr :: [tok.qd] = _
      rw [hydsEq]
      rfl
    have hcnew : (Nat.digitChar (y / 10 % 10)).isDigit = true :=
      digitChar_isDigit (Nat.mod_lt _ (by omega))
    have hdnew : (Nat.digitChar (y % 10)).isDigit = true :=
      digitChar_isDigit (Nat.mod_lt _ (by omega))
    simp only [List.cons_append, findQAux, List.append_eq] at h ⊢
    cases htry : tryQ (c0 :: (pre' ++ QTok.chars tok ++ post)) with
    | some res =>
      obtain ⟨tok0, rest0⟩ := res
      simp only [htry, Option.some.injEq, Prod.mk.injEq] at h
      exact absurd h.1 (by simp)
    | none =>
      simp only [htry] at h
      cases hrec : findQAux (pre' ++ QTok.chars tok ++ post) with
      | none => rw [hrec] at h; exact absurd h (by simp)
      | some res =>
        obtain ⟨pre0, tok0, rest0⟩ := res
        simp only [hrec, Option.some.injEq, Prod.mk.injEq] at h
        obtain ⟨hpre, htok, hrest⟩ := h
        have hpre' : pre0 = pre' := by
          injection hpre with h1 h2
        rw [hpre', htok, hrest] at hrec
        have hrec' := ih tok post y q hrec hy1 hy2 hq1 hq2
        have hshape_old : c0 :: (pre' ++ QTok.chars tok ++ post)
            = (c0 :: pre') ++ '2' :: '0' :: cc :: dd :: tok.qchr :: tok.qd :: post := by
          rw [hchars_old]
          simp
        have hshape_new : c0 :: (pre' ++ (natChars y ++ 'q' :: natChars q) ++ post)
            = (c0 :: pre') ++ '2' :: '0' :: Nat.digitChar (y / 10 % 10)
                :: Nat.digitChar (y % 10) :: 'q' :: Nat.digitChar q :: post := by
          rw [natChars_year y hy1 hy2, qdigit_chars q hq1 hq2]
          simp
        have htry_old : tryQ ((c0 :: pre')
            ++ '2' :: '0' :: cc :: dd :: tok.qchr :: tok.qd :: post) = none := by
          rw [← hshape_old]
          exact htry
        have htry_new : tryQ ((c0 :: pre') ++ '2' :: '0' :: Nat.digitChar (y / 10 % 10)
            :: Nat.digitChar (y % 10) :: 'q' :: Nat.digitChar q :: post) = none :=
          (tryQ_indep (c0 :: pre') (by simp) cc dd tok.qchr tok.qd
            (Nat.digitChar (y / 10 % 10)) (Nat.digitChar (y % 10)) 'q' (Nat.digitChar q)
            hcc hdd hcnew hdnew post post).mp htry_old
        have htry_new' : tryQ (c0 :: (pre' ++ (natChars y ++ 'q' :: natChars q) ++ post))
            = none := by
          rw [hshape_new]
          exact htry_new
        simp only [htry_new', hrec']

theorem tryF_sound (s : List Char) (tok : FTok) (rest : List Char)
    (h : tryF s = some (tok, rest)) : s = FTok.chars tok ++ rest := by
  rcases s with _ | ⟨h0, s⟩
  · exact absurd h (by simp [tryF])
  rcases s with _ | ⟨fc, s⟩
  · exact absurd h (by simp [tryF])
  rcases s with _ | ⟨n0, rest2⟩
  · exact absurd h (by simp [tryF])
  simp only [tryF] at h
  by_cases hcond : h0 = '-' ∧ (fc = 'f' ∨ fc = 'F') ∧ (n0 = '1' ∨ n0 = '2')
      ∧ fLookahead rest2 = true
  · rw [if_pos hcond] at h
    injection h with h1
    injection h1 with htok hrest
    subst htok
    subst hrest
    rw [hcond.1]
    rfl
  · rw [if_neg hcond] at h
    exact absurd h (by simp)

theorem findFAux_sound :
    ∀ (s pre : List Char) (tok : FTok) (rest : List Char),
      findFAux s = some (pre, tok, rest) →
      s = pre ++ FTok.chars tok ++ rest := by
  intro s
  induction s with
  | nil =>
    intro pre tok rest h
    exact absurd h (by simp [findFAux])
  | cons c cs ih =>
    intro pre tok rest h
    simp only [findFAux] at h
    cases htry : tryF (c :: cs) with
    | some res =>
      obtain ⟨tok0, rest0⟩ := res
      simp only [htry, Option.some.injEq, Prod.mk.injEq] at h
      obtain ⟨hpre, htok, hrest⟩ := h
      subst htok
      subst hrest
      rw [← hpre]
      simpa using tryF_sound (c :: cs) tok0 rest0 htry
    | none =>
      simp only [htry] at h
      cases hrec : findFAux cs with
      | none => rw [hrec] at h; exact absurd h (by simp)
      | some res =>
        obtain ⟨pre0, tok0, rest0⟩ := res
        simp only [hrec, Option.some.injEq, Prod.mk.injEq] at h
        obtain ⟨hpre, htok, hrest⟩ := h
        subst htok
        subst hrest
        rw [← hpre]
        simp [ih pre0 tok0 rest0 hrec]

/-- C4 (amended): round-trip of the URL field rewriters holds on URLs whose
version token is delimited by hyphens or string boundaries (not
underscores) and for versions below 1000; on such a URL that also carries a
quarter token, `parse_vr (set_vr u v r) = some (v, r)` and
`parse_quarter (set_quarter u y q) = some (y, q)` for every revision `r`,
every year `2000 ≤ y ≤ 2099` and quarter `1 ≤ q ≤ 4`.  (With underscore
delimiters the repl of `_set_vr` drops the delimiter and the round-trip
fails; see the counterexample.) -/
theorem url_roundtrip_hyphen_delimited (u : String) (v r y q : Nat)
    (pre : List Char) (tok : VRTok) (post : List Char)
    (hvr : findVR u.data = some (pre, tok, post))
    (hl : tok.lead = some '-' ∨ tok.lead = none)
    (ht : tok.trail = some '-' ∨ tok.trail = none)
    (hv : v < 1000)
    (preq : List Char) (qtok : QTok) (postq : List Char)
    (hqf : findQAux u.data = some (preq, qtok, postq))
    (hy1 : 2000 ≤ y) (hy2 : y ≤ 2099) (hq1 : 1 ≤ q) (hq2 : q ≤ 4) :
    parse_vr (set_vr u v r) = some (v, r)
      ∧ parse_quarter (set_quarter u y q) = some (y, q) := by
  constructor
  · have hu : u.data = pre ++ VRTok.chars tok ++ post :=
      (findVRAux_sound u.data true pre tok post hvr).1
    have hstable : findVRAux (pre ++ VRTok.chars
        ⟨tok.lead, 'v', pad3 v, 'r', natChars r, tok.trail⟩ ++ post) true
        = some (pre, ⟨tok.lead, 'v', pad3 v, 'r', natChars r, tok.trail⟩, post) := by
      apply findVRAux_stable pre true tok post v r ?_ hl ht hv
      rw [← hu]
      exact hvr
    have hframe : (set_vr u v r).data = pre ++ VRTok.chars
        ⟨tok.lead, 'v', pad3 v, 'r', natChars r, tok.trail⟩ ++ post := by
      show setVRchars u.data v r = _
      simp only [setVRchars, hvr]
      rw [VRTok_chars_eq]
      rcases hl with hl' | hl' <;> rcases ht with ht' | ht' <;> rw [hl', ht'] <;> simp
    simp only [parse_vr]
    rw [hframe]
    simp only [findVR]
    rw [hstable]
    simp [charsToNat_pad3, charsToNat_natChars]
  · have hu : u.data = preq ++ QTok.chars qtok ++ postq :=
      (findQAux_sound u.data preq qtok postq hqf).1
    have hstable : findQAux (preq ++ (natChars y ++ 'q' :: natChars q) ++ postq)
        = some (preq, ⟨natChars y, 'q', Nat.digitChar q⟩, postq) := by
      apply findQAux_stable preq qtok postq y q ?_ hy1 hy2 hq1 hq2
      rw [← hu]
      exact hqf
    have hframe : (set_quarter u y q).data
        = preq ++ (natChars y ++ 'q' :: natChars q) ++ postq := by
      show setQchars u.data y q = _
      simp only [setQchars, hqf]
    simp only [parse_quarter]
    rw [hframe]
    rw [hstable]
    have hq10 : charsToNat [Nat.digitChar q] = q := by
      simp [charsToNat, digitChar_toNat (show q < 10 by omega)]
    simp [charsToNat_natChars, hq10]

/-- C4 counterexample: on an underscore-delimited URL the round-trip of the
original claim fails — the rewritten URL no longer contains a version token
at all, because the repl of `_set_vr` re-emits only hyphen delimiters. -/
theorem url_roundtrip_counterexample :
    parse_vr "a_v313r0_2025q4.zip" = some (313, 0)
    ∧ parse_quarter "a_v313r0_2025q4.zip" = some (2025, 4)
    ∧ set_vr "a_v313r0_2025q4.zip" 5 1 = "av005r12025q4.zip"
    ∧ parse_vr (set_vr "a_v313r0_2025q4.zip" 5 1) = none :=
  ⟨rfl, rfl, rfl, rfl⟩

/-- C4 witness at a concrete hyphen-delimited URL. -/
theorem url_roundtrip_hyphen_delimited_witness :
    parse_vr (set_vr "a-v313r0-2025q4.zip" 314 2) = some (314, 2)
      ∧ parse_quarter (set_quarter "a-v313r0-2025q4.zip" 2026 1) = some (2026, 1) :=
  url_roundtrip_hyphen_delimited "a-v313r0-2025q4.zip" 314 2 2026 1
    "a".data ⟨some '-', 'v', ['3', '1', '3'], 'r', ['0'], some '-'⟩ "2025q4.zip".data
    (by decide) (Or.inl rfl) (Or.inl rfl) (by decide)
    "a-v313r0-".data ⟨['2', '0', '2', '5'], 'q', '4'⟩ ".zip".data
    (by decide) (by decide) (by decide) (by decide) (by decide)

/-- C5 (amended): each rewriter preserves, byte for byte, every character
outside its regex match: when the corresponding pattern matches, `_set_vr`,
`_set_quarter` and `_with_f` rebuild the URL as prefix ++ replacement ++
suffix with the prefix and the suffix of the match verbatim.  For `_set_vr`
the match — and hence the replaced region — includes the delimiter
characters around `v###r#`, and an underscore delimiter is not re-emitted,
so the claim restricted to the token proper is false (see the
counterexample). -/
theorem rewriters_preserve_surroundings (u : String) (v r y q n : Nat)
    (pre : List Char) (tok : VRTok) (post : List Char)
    (hvr : findVR u.data = some (pre, tok, post))
    (preq : List Char) (qtok : QTok) (postq : List Char)
    (hqf : findQAux u.data = some (preq, qtok, postq))
    (pref : List Char) (ftok : FTok) (postf : List Char)
    (hff : findFAux u.data = some (pref, ftok, postf)) :
    (u.data = pre ++ VRTok.chars tok ++ post
      ∧ (set_vr u v r).data = pre ++ ((if tok.lead = some '-' then ['-'] else [])
          ++ 'v' :: (pad3 v ++ 'r' :: (natChars r
          ++ (if tok.trail = some '-' then ['-'] else [])))) ++ post)
    ∧ (u.data = preq ++ QTok.chars qtok ++ postq
      ∧ (set_quarter u y q).data = preq ++ (natChars y ++ 'q' :: natChars q) ++ postq)
    ∧ (u.data = pref ++ FTok.chars ftok ++ postf
      ∧ (with_f u n).data = pref ++ ('-' :: 'f' :: natChars n) ++ postf) := by
  refine ⟨⟨(findVRAux_sound u.data true pre tok post hvr).1, ?_⟩,
    ⟨(findQAux_sound u.data preq qtok postq hqf).1, ?_⟩,
    ⟨findFAux_sound u.data pref ftok postf hff, ?_⟩⟩
  · show setVRchars u.data v r = _
    simp only [setVRchars, hvr]
  · show setQchars u.data y q = _
    simp only [setQchars, hqf]
  · show withFchars u.data n = _
    simp only [withFchars, hff]

/-- C5 counterexample: `_set_vr` deletes underscore delimiters adjacent to
the `v###r#` digits, so characters surrounding the version token proper are
not preserved — the ten-character URL shrinks to eight. -/
theorem set_vr_deletes_underscore_delimiters :
    set_vr "a_v313r0_b" 5 1 = "av005r1b"
    ∧ "a_v313r0_b".length = 10 ∧ ("av005r1b" : String).length = 8 :=
  ⟨rfl, rfl, rfl⟩

/-- C5 witness at a concrete URL carrying all three tokens. -/
theorem rewriters_preserve_surroundings_witness :
    (set_vr "x-2025q4-v313r0-f1.zip" 7 2).data
        = "x-2025q4".data ++ (['-'] ++ 'v' :: (pad3 7 ++ 'r' :: (natChars 2 ++ ['-'])))
          ++ "f1.zip".data
    ∧ (set_quarter "x-2025q4-v313r0-f1.zip" 2026 3).data
        = "x-".data ++ (natChars 2026 ++ 'q' :: natChars 3) ++ "-v313r0-f1.zip".data
    ∧ (with_f "x-2025q4-v313r0-f1.zip" 2).data
        = "x-2025q4-v313r0".data ++ ('-' :: 'f' :: natChars 2) ++ ".zip".data := by
  have h := rewriters_preserve_surroundings "x-2025q4-v313r0-f1.zip" 7 2 2026 3 2
    "x-2025q4".data ⟨some '-', 'v', ['3', '1', '3'], 'r', ['0'], some '-'⟩ "f1.zip".data
    (by decide)
    "x-".data ⟨['2', '0', '2', '5'], 'q', '4'⟩ "-v313r0-f1.zip".data
    (by decide)
    "x-2025q4-v313r0".data ⟨'f', '1'⟩ ".zip".data
    (by decide)
  exact ⟨h.1.2, h.2.1.2, h.2.2.2⟩

end NCCI
